import Mathlib

/-!
# Verification of the transfer_track incremental synchronization engine

Shallow embedding, in Lean 4, of the core of the `ductm54/transfer_track`
repository: the Etherscan fetch client (`internal/etherscan/client.go`),
the storage layer (batch persistence, cursor queries, config key/value
store), the sync coordinator (`internal/service/transfer_service.go`),
the scheduler's daily-trigger check and the amount-normalization helper
(`internal/api/handlers.go`).

Strings, integers and timestamps are modelled exactly as the Go code
manipulates them (timestamps as unix seconds, amounts as decimal strings,
addresses as strings normalized with `strings.ToLower`).  External
effects (HTTP pages, the wall clock) are passed in as explicit oracles.
-/

namespace TransferTrack

/-- Model of Go `strings.ToLower` on the address strings used by the
repository (ASCII hex addresses). -/
def toLowerStr (s : String) : String := ⟨s.data.map Char.toLower⟩

/-- Parse a non-empty all-digit character list as a decimal natural
number; `none` on empty input or any non-digit character. -/
def digitsToNat? (cs : List Char) : Option Nat :=
  match cs with
  | [] => none
  | _ =>
    cs.foldl
      (fun acc c =>
        acc.bind fun n =>
          if c.isDigit then some (n * 10 + (c.toNat - '0'.toNat)) else none)
      (some 0)

/-- Model of Go `strconv.ParseInt(s, 10, 64)` (also covering
`strconv.Atoi` on 64-bit platforms): optional sign, decimal digits,
64-bit signed range check. -/
def parseInt64? (s : String) : Option Int :=
  match s.data with
  | '-' :: rest =>
    (digitsToNat? rest).bind fun n =>
      if (n : Int) ≤ 2 ^ 63 then some (-(n : Int)) else none
  | '+' :: rest =>
    (digitsToNat? rest).bind fun n =>
      if (n : Int) ≤ 2 ^ 63 - 1 then some (n : Int) else none
  | cs =>
    (digitsToNat? cs).bind fun n =>
      if (n : Int) ≤ 2 ^ 63 - 1 then some (n : Int) else none

/-- The native-asset (ETH) sentinel address used throughout the source. -/
def zeroAddress : String := "0x0000000000000000000000000000000000000000"

/-- `ETHTransaction` from `internal/etherscan/client.go` (the fields the
sync path reads; gas/receipt fields are carried by the source struct but
never used by the engine). -/
structure ETHTransaction where
  blockNumber : String
  timeStamp : String
  hash : String
  fromAddr : String
  toAddr : String
  value : String
  isError : String
  deriving Repr, DecidableEq

/-- `ERC20Transaction` from `internal/etherscan/client.go` (the fields
the sync path reads).  Note the source struct carries no is-error /
receipt-status field at all. -/
structure ERC20Transaction where
  blockNumber : String
  timeStamp : String
  hash : String
  fromAddr : String
  toAddr : String
  value : String
  contractAddress : String
  deriving Repr, DecidableEq

/-- `storage.Transfer`: one row of the `transfers` table.  The
`timestamp` column is modelled as unix seconds (the code always builds
it with `time.Unix(ts, 0)`). -/
structure Transfer where
  hash : String
  blockNumber : Int
  timestamp : Int
  fromAddress : String
  toAddress : String
  tokenAddress : String
  amount : String
  deriving Repr, DecidableEq

/-- The uniqueness key of the `transfers` table:
`UNIQUE(hash, token_address, from_address, to_address)` from
`migrations/00001_init.up.sql`. -/
structure TransferKey where
  hash : String
  token : String
  fromA : String
  toA : String
  deriving Repr, DecidableEq

/-- Address normalization performed by `AddTransfersBatch` before each
insert: `from`, `to` and `token` are lower-cased. -/
def normalizeTransfer (t : Transfer) : Transfer :=
  { t with
    fromAddress := toLowerStr t.fromAddress
    toAddress := toLowerStr t.toAddress
    tokenAddress := toLowerStr t.tokenAddress }

/-- The uniqueness key of a (stored) transfer row. -/
def transferKey (t : Transfer) : TransferKey :=
  ⟨t.hash, t.tokenAddress, t.fromAddress, t.toAddress⟩

/-- Does the table already hold a row with this uniqueness key? -/
def hasKey (db : List Transfer) (k : TransferKey) : Bool :=
  db.any fun r => decide (transferKey r = k)

/-- Number of stored rows carrying a given uniqueness key. -/
def countKey (db : List Transfer) (k : TransferKey) : Nat :=
  (db.filter fun r => decide (transferKey r = k)).length

/-- One `INSERT ... ON CONFLICT (hash, token_address, from_address,
to_address) DO NOTHING` of a (normalized) transfer into the table. -/
def insertTransfer (db : List Transfer) (t : Transfer) : List Transfer :=
  let t' := normalizeTransfer t
  if hasKey db (transferKey t') then db else db ++ [t']

/-- The per-record loop of `AddTransfersBatch` acting on the
transaction's working copy of the table.  `execFails i` says whether the
database reports an error on the `i`-th `stmt.ExecContext` call; on the
first such error the loop stops (`none`). -/
def runInserts (execFails : Nat → Bool) :
    List Transfer → List Transfer → Nat → Option (List Transfer)
  | w, [], _ => some w
  | w, t :: ts, i =>
    if execFails i then none
    else runInserts execFails (insertTransfer w t) ts (i + 1)

/-- `storage.AddTransfersBatch`: empty input is a no-op success;
otherwise all inserts run inside one transaction; on any exec failure
the transaction rolls back (the visible table is the original one) and
an error is returned; a commit failure likewise leaves the table
unchanged.  Returns `(error?, visible table)`. -/
def addTransfersBatch (execFails : Nat → Bool) (commitFails : Bool)
    (db : List Transfer) (transfers : List Transfer) :
    Option String × List Transfer :=
  if transfers.isEmpty then (none, db)
  else
    match runInserts execFails db transfers 0 with
    | none => (some "executing statement", db)
    | some w =>
      if commitFails then (some "committing transaction", db) else (none, w)

/-- Batch persistence in the failure-free environment (the form the sync
coordinator relies on). -/
def persistBatch (db : List Transfer) (ts : List Transfer) : List Transfer :=
  (addTransfersBatch (fun _ => false) false db ts).2

example : persistBatch [] [⟨"0xh", 1, 5, "0xA", "0xB", "0xC", "7"⟩] =
    [⟨"0xh", 1, 5, "0xa", "0xb", "0xc", "7"⟩] := by decide

example :
    (addTransfersBatch (fun _ => true) false []
      [⟨"0xh", 1, 5, "0xA", "0xB", "0xC", "7"⟩]).2 = [] := by decide

/-! ## Cursor resolver (storage queries) -/

/-- SQL `COALESCE(MAX(col), 0)` over the listed values. -/
def sqlMaxCoalesce (l : List Int) : Int :=
  match l with
  | [] => 0
  | x :: xs => xs.foldl max x

/-- SQL `COALESCE(MIN(col), 0)` over the listed values. -/
def sqlMinCoalesce (l : List Int) : Int :=
  match l with
  | [] => 0
  | x :: xs => xs.foldl min x

/-- The `(from_address = $1 OR to_address = $1)` predicate of the cursor
queries. -/
def matchesAddr (a : String) (r : Transfer) : Bool :=
  decide (r.fromAddress = a) || decide (r.toAddress = a)

/-- `storage.GetLastProcessedBlock`: the address and token are
lower-cased; an empty or zero token selects the native (ETH) rows;
the result is `COALESCE(MAX(block_number), 0)` over the rows where the
address appears as sender or receiver with the selected asset. -/
def getLastProcessedBlock (db : List Transfer) (address tokenAddress : String) : Int :=
  let a := toLowerStr address
  let tk := toLowerStr tokenAddress
  if tk = "" ∨ tk = zeroAddress then
    sqlMaxCoalesce
      ((db.filter fun r => matchesAddr a r && decide (r.tokenAddress = zeroAddress)).map
        (·.blockNumber))
  else
    sqlMaxCoalesce
      ((db.filter fun r => matchesAddr a r && decide (r.tokenAddress = tk)).map
        (·.blockNumber))

/-- The distinct non-native asset identifiers stored for an (already
lower-cased) address — the `GROUP BY token_address` of the aggregate
cursor query. -/
def distinctTokens (db : List Transfer) (a : String) : List String :=
  ((db.filter fun r => matchesAddr a r && !decide (r.tokenAddress = zeroAddress)).map
    (·.tokenAddress)).dedup

/-- Per-token `COALESCE(MAX(block_number), 0)` for an (already
lower-cased) address. -/
def tokenMaxBlock (db : List Transfer) (a tk : String) : Int :=
  sqlMaxCoalesce
    ((db.filter fun r => matchesAddr a r && decide (r.tokenAddress = tk)).map
      (·.blockNumber))

/-- `storage.GetLastProcessedBlockForERC20`: minimum over all distinct
non-native tokens seen for the address of each token's maximum block
number, `0` when no non-native rows exist. -/
def getLastProcessedBlockForERC20 (db : List Transfer) (address : String) : Int :=
  let a := toLowerStr address
  sqlMinCoalesce ((distinctTokens db a).map fun tk => tokenMaxBlock db a tk)

/-! ## Config key/value store -/

/-- The config table, keyed by string key (`config` in the schema). -/
abbrev Config := List (String × String)

/-- `storage.GetConfig`: `SELECT value FROM config WHERE key = $1`
(`none` models the `sql.ErrNoRows` error path). -/
def getConfig (cfg : Config) (k : String) : Option String :=
  (cfg.find? fun p => decide (p.1 = k)).map (·.2)

/-- `storage.UpdateConfig`: update the matching row; insert when no row
was affected (upsert). -/
def updateConfig (cfg : Config) (k v : String) : Config :=
  if cfg.any fun p => decide (p.1 = k) then
    cfg.map fun p => if p.1 = k then (p.1, v) else p
  else
    cfg ++ [(k, v)]

/-- `last_eth_update` config key (the "last native update" marker). -/
def configKeyLastETHUpdate : String := "last_eth_update"

/-- `last_token_update` config key (the "last token update" marker). -/
def configKeyLastTokenUpdate : String := "last_token_update"

/-- `min_refresh_interval_hours` config key. -/
def configKeyMinRefreshInterval : String := "min_refresh_interval_hours"

/-- `defaultMinRefreshIntervalHrs` from `transfer_service.go`. -/
def defaultMinRefreshIntervalHrs : Int := 1

/-! ## Paginated fetcher with local window filter -/

/-- `defaultOffset` (the fixed page size) from `client.go`. -/
def defaultOffset : Nat := 10000

/-- The per-page timestamp filter shared by `fetchETHTransactions` and
`fetchERC20Transactions`: a record whose `timeStamp` fails
`strconv.ParseInt` is dropped; otherwise it is kept iff its time is
inside `[startT, endT]` (inclusive on both bounds, at the unix-second
granularity of `time.Unix(ts, 0)`). -/
def filterByWindow {α : Type} (timeStampOf : α → String) (startT endT : Int)
    (txs : List α) : List α :=
  txs.filter fun tx =>
    match parseInt64? (timeStampOf tx) with
    | none => false
    | some ts => decide (startT ≤ ts ∧ ts ≤ endT)

/-- The pagination loop shared by `fetchETHTransactions` and
`fetchERC20Transactions`: fetch page `page` from the upstream oracle,
filter it locally by the time window, accumulate, and continue while the
upstream page was full (`length < offset` stops).  Any transport/feed
error aborts the whole fetch, discarding the pages already filtered.
`fuel` bounds the (in Go, potentially unbounded) loop. -/
def fetchPagesLoop {α : Type} (timeStampOf : α → String)
    (pages : Nat → Except String (List α)) (startT endT : Int) (offset : Nat) :
    Nat → Nat → List α → Except String (List α)
  | 0, _, _ => .error "out of fuel"
  | fuel + 1, page, acc =>
    match pages page with
    | .error e => .error e
    | .ok txs =>
      let acc' := acc ++ filterByWindow timeStampOf startT endT txs
      if txs.length < offset then .ok acc'
      else fetchPagesLoop timeStampOf pages startT endT offset fuel (page + 1) acc'

/-- `client.fetchETHTransactions` (pages start at `defaultPage = 1`,
page size `defaultOffset`). -/
def fetchETHTransactions (pages : Nat → Except String (List ETHTransaction))
    (startT endT : Int) (fuel : Nat) : Except String (List ETHTransaction) :=
  fetchPagesLoop ETHTransaction.timeStamp pages startT endT defaultOffset fuel 1 []

/-- `client.fetchERC20Transactions` (pages start at `defaultPage = 1`,
page size `defaultOffset`). -/
def fetchERC20Transactions (pages : Nat → Except String (List ERC20Transaction))
    (startT endT : Int) (fuel : Nat) : Except String (List ERC20Transaction) :=
  fetchPagesLoop ERC20Transaction.timeStamp pages startT endT defaultOffset fuel 1 []

/-! ## Sync coordinator (`service.TransferService`) -/

/-- Normalization of one fetched ETH transaction performed by
`fetchAndStoreETHTransfers`: drop it when the upstream is-error flag is
not `"0"`, or when its block number or timestamp does not parse; else
build the ledger record with the zero-address native sentinel. -/
def ethTxToTransfer? (tx : ETHTransaction) : Option Transfer :=
  if tx.isError ≠ "0" then none
  else
    match parseInt64? tx.blockNumber, parseInt64? tx.timeStamp with
    | some b, some ts =>
      some ⟨tx.hash, b, ts, tx.fromAddr, tx.toAddr, zeroAddress, tx.value⟩
    | _, _ => none

/-- The batch built from a fetched list of ETH transactions. -/
def processETHTransactions (txs : List ETHTransaction) : List Transfer :=
  txs.filterMap ethTxToTransfer?

/-- Normalization of one fetched ERC20 transfer performed by
`fetchAndStoreAllERC20Transfers`: drop it only when its block number or
timestamp does not parse (there is no success-status check); else build
the ledger record with the token's contract address as asset. -/
def erc20TxToTransfer? (tx : ERC20Transaction) : Option Transfer :=
  match parseInt64? tx.blockNumber, parseInt64? tx.timeStamp with
  | some b, some ts =>
    some ⟨tx.hash, b, ts, tx.fromAddr, tx.toAddr, tx.contractAddress, tx.value⟩
  | _, _ => none

/-- The batch built from a fetched list of ERC20 transfers. -/
def processERC20Transactions (txs : List ERC20Transaction) : List Transfer :=
  txs.filterMap erc20TxToTransfer?

/-- The external-fetch environment of one `FetchAndStoreTransfers` run:
each fetch takes the address and the resume block the coordinator
resolved, and either returns the fetched transactions or fails with a
transport/feed error. -/
structure SyncEnv where
  fetchETH : String → Int → Except String (List ETHTransaction)
  fetchERC20 : String → Int → Except String (List ERC20Transaction)

/-- The persistent state the coordinator reads and writes: the
`transfers` table and the `config` table. -/
structure SyncState where
  db : List Transfer
  config : Config

/-- The per-address body of the loop in `FetchAndStoreTransfers`:
fetch and store ETH transfers (a fetch error skips the whole address —
`continue`), then fetch and store all ERC20 transfers (a fetch error
leaves the already-persisted ETH batch in place and moves on). -/
def syncAddress (env : SyncEnv) (st : SyncState) (a : String) : SyncState :=
  match env.fetchETH a (getLastProcessedBlock st.db a zeroAddress) with
  | .error _ => st
  | .ok txs =>
    let st1 : SyncState := { st with db := persistBatch st.db (processETHTransactions txs) }
    match env.fetchERC20 a (getLastProcessedBlockForERC20 st1.db a) with
    | .error _ => st1
    | .ok txs2 =>
      { st1 with db := persistBatch st1.db (processERC20Transactions txs2) }

/-- `service.FetchAndStoreTransfers` (given a successfully loaded source
address list `addrs` and the RFC3339-formatted current time `nowStr`):
with no source addresses it returns immediately; otherwise it processes
every address in order — per-address failures only skip that address —
and finally stamps both freshness markers with `nowStr`.  Returns
`(error?, new state)`; per-address failures never produce an error. -/
def syncAll (env : SyncEnv) (addrs : List String) (nowStr : String)
    (st : SyncState) : Option String × SyncState :=
  if addrs.isEmpty then (none, st)
  else
    let st1 := addrs.foldl (syncAddress env) st
    let cfg :=
      updateConfig (updateConfig st1.config configKeyLastETHUpdate nowStr)
        configKeyLastTokenUpdate nowStr
    (none, { st1 with config := cfg })

/-! ## Refresh policy -/

/-- `service.GetRefreshInterval` as used by `ShouldRefreshData`: read
`min_refresh_interval_hours`; on a missing key or an unparseable value
fall back to the default (1 hour). -/
def getRefreshInterval (cfg : Config) : Int :=
  match getConfig cfg configKeyMinRefreshInterval with
  | none => defaultMinRefreshIntervalHrs
  | some v =>
    match parseInt64? v with
    | none => defaultMinRefreshIntervalHrs
    | some h => h

/-- `service.ShouldRefreshData`.  `parseRFC3339` models
`time.Parse(time.RFC3339, ·)` returning unix nanoseconds; `now` is the
current time in unix nanoseconds (`time.Since` compares at nanosecond
resolution).  A missing or unparseable "last native update" marker means
refresh; otherwise refresh exactly when the elapsed time strictly
exceeds the configured interval in hours. -/
def shouldRefreshData (cfg : Config) (parseRFC3339 : String → Option Int)
    (now : Int) : Bool :=
  match getConfig cfg configKeyLastETHUpdate with
  | none => true
  | some s =>
    match parseRFC3339 s with
    | none => true
    | some t => decide (now - t > getRefreshInterval cfg * 3600 * 1000000000)

/-! ## Scheduler daily trigger -/

/-- Decimal value of an ASCII digit pair. -/
def twoDigits? (c1 c2 : Char) : Option Nat :=
  if c1.isDigit ∧ c2.isDigit then
    some ((c1.toNat - '0'.toNat) * 10 + (c2.toNat - '0'.toNat))
  else none

/-- Model of `time.Parse("15:04:05", s)` on the zero-padded `HH:MM:SS`
strings the repository stores (validated at write time by
`UpdateDailyRefreshTime`): two-digit hour `< 24`, minute `< 60`, second
`< 60`, separated by colons. -/
def parseHMS (s : String) : Option (Nat × Nat × Nat) :=
  match s.data with
  | [h1, h2, ':', m1, m2, ':', s1, s2] =>
    match twoDigits? h1 h2, twoDigits? m1 m2, twoDigits? s1 s2 with
    | some h, some m, some sec =>
      if h < 24 ∧ m < 60 ∧ sec < 60 then some (h, m, sec) else none
    | _, _, _ => none
  | _ => none

/-- `scheduler.checkAndRunDailyUpdate`, reduced to its decision: parse
the configured daily-refresh-time; on a parse failure do not run;
otherwise run exactly when the current wall-clock hour and minute equal
the configured hour and minute (both sides are rebuilt with
`time.Date(0, 1, 1, hour, minute, 0, 0, UTC)`, so seconds are ignored). -/
def shouldRunDailyUpdate (timeStr : String) (nowH nowM _nowS : Nat) : Bool :=
  match parseHMS timeStr with
  | none => false
  | some (h, m, _) => decide (nowH = h ∧ nowM = m)

example : parseHMS "09:00:00" = some (9, 0, 0) := by decide
example : shouldRunDailyUpdate "09:00:00" 9 0 30 = true := by decide
example : shouldRunDailyUpdate "09:00:00" 8 59 30 = false := by decide

/-! ## Amount normalization (`api.normalizeAmount` over Go `math/big.Float`)

`normalizeAmount` divides the raw decimal amount by `10^decimals` using
`big.Float` arithmetic, not exact rationals.  The Go semantics modelled
here: `new(big.Float).SetString` on a 0-precision float parses exactly
and then rounds to 64 significand bits (round to nearest, ties to even);
`SetInt` uses precision `max(bitlen, 64)` and is exact; `Quo` on a
0-precision receiver rounds the exact quotient to the larger of the two
operand precisions; `Text('f', decimals)` renders the binary value with
`decimals` fractional digits, correctly rounded. -/

/-- Bit length of a natural number (fuel-based so that it reduces in
the kernel; `bitLen` below supplies enough fuel). -/
def bitLenAux : Nat → Nat → Nat
  | 0, _ => 0
  | fuel + 1, n => if n = 0 then 0 else bitLenAux fuel (n / 2) + 1

/-- Bit length of a natural number: `Go math/big.Int.BitLen`. -/
def bitLen (n : Nat) : Nat := bitLenAux n n

/-- Decimal digit characters. -/
def digitChar : Nat → Char
  | 0 => '0' | 1 => '1' | 2 => '2' | 3 => '3' | 4 => '4'
  | 5 => '5' | 6 => '6' | 7 => '7' | 8 => '8' | _ => '9'

/-- Decimal digit list of a natural number (fuel-based so that it
reduces in the kernel). -/
def natDigits : Nat → Nat → List Char
  | 0, _ => []
  | fuel + 1, n =>
    if n < 10 then [digitChar n]
    else natDigits fuel (n / 10) ++ [digitChar (n % 10)]

/-- Decimal string of a natural number. -/
def natDecString (n : Nat) : String := String.mk (natDigits (n + 1) n)

/-- Round the fraction `a / b` to the nearest natural number, ties to
even. -/
def rnDivNat (a b : Nat) : Nat :=
  let q := a / b
  let r := a % b
  if 2 * r < b then q
  else if b < 2 * r then q + 1
  else if q % 2 = 0 then q else q + 1

/-- Is `a / b < 2 ^ d` (with a possibly negative exponent)? -/
def ltPow2 (a b : Nat) (d : Int) : Bool :=
  if 0 ≤ d then decide (a < b * 2 ^ d.toNat)
  else decide (a * 2 ^ (-d).toNat < b)

/-- The binary exponent of the positive fraction `a / b`: the unique `e`
with `2 ^ (e - 1) ≤ a / b < 2 ^ e`. -/
def fracExp (a b : Nat) : Int :=
  let d0 : Int := (bitLen a : Int) - (bitLen b : Int)
  if ltPow2 a b d0 then d0 else d0 + 1

/-- Round the non-negative fraction `a / b` to `p` significand bits,
round to nearest with ties to even (the rounding `big.Float` applies
when it stores a value onto a precision-`p` float).  The result is a
dyadic number `(m, t)` standing for `m * 2 ^ t`. -/
def rnPrecFrac (a b : Nat) (p : Nat) : Nat × Int :=
  if a = 0 then (0, 0)
  else
    let e := fracExp a b
    let s : Int := (p : Int) - e
    if 0 ≤ s then (rnDivNat (a * 2 ^ s.toNat) b, e - p)
    else (rnDivNat a (b * 2 ^ (-s).toNat), e - p)

/-- The rational value of a dyadic number. -/
def dval (x : Nat × Int) : ℚ := (x.1 : ℚ) * 2 ^ x.2

/-- The dyadic value `x` divided by `10 ^ d`, as a fraction of naturals
(the exact quotient `big.Float.Quo` is asked to round). -/
def divPow10 (x : Nat × Int) (d : Nat) : Nat × Nat :=
  if 0 ≤ x.2 then (x.1 * 2 ^ x.2.toNat, 10 ^ d)
  else (x.1, 10 ^ d * 2 ^ (-x.2).toNat)

/-- `x * 10 ^ d` rounded to the nearest integer, ties to even: the
scaled integer whose decimal digits `big.Float.Text('f', d)` prints for
the non-negative dyadic value `x`. -/
def scaleRound (x : Nat × Int) (d : Nat) : Nat :=
  if 0 ≤ x.2 then x.1 * 10 ^ d * 2 ^ x.2.toNat
  else rnDivNat (x.1 * 10 ^ d) (2 ^ (-x.2).toNat)

/-- The precision `big.Float.Quo` uses in `normalizeAmount`: the larger
of the parsed amount's precision (64) and the divisor's precision
(`max(bitlen(10^decimals), 64)`). -/
def goQuoPrec (d : Nat) : Nat := max 64 (bitLen (10 ^ d))

/-- The scaled integer whose decimal digits `normalizeAmount` prints:
parse the raw integer amount onto a 64-bit float (`SetString` on a
0-precision float), divide by `10^d` at precision `goQuoPrec d` (`Quo`),
and round the result times `10^d` to an integer (the digit string of
`Text('f', d)`). -/
def normalizeScaled (n : Nat) (d : Nat) : Nat :=
  let r1 := rnPrecFrac n 1 64
  let fr := divPow10 r1 d
  let q := rnPrecFrac fr.1 fr.2 (goQuoPrec d)
  scaleRound q d

/-- Render a scaled integer with `d` fractional digits, as
`big.Float.Text('f', d)` lays out its digits. -/
def renderFixed (scaled : Nat) (d : Nat) : String :=
  if d = 0 then natDecString scaled
  else
    let ip := scaled / 10 ^ d
    let fp := scaled % 10 ^ d
    let fpStr := natDecString fp
    let pad := String.mk (List.replicate (d - fpStr.length) '0')
    natDecString ip ++ "." ++ pad ++ fpStr

/-- `api.normalizeAmount` on the non-negative decimal-integer amount
strings the aggregate query produces (`NUMERIC(78,0)` sums): an
unparseable amount yields `"0"`; otherwise the parsed value is pushed
through the `big.Float` pipeline and rendered with `decimals`
fractional digits. -/
def normalizeAmount (amount : String) (decimals : Nat) : String :=
  match digitsToNat? amount.data with
  | none => "0"
  | some n => renderFixed (normalizeScaled n decimals) decimals

example : normalizeScaled 1500000000000000000 18 = 1500000000000000000 := by decide
example : normalizeScaled 18446744073709551617 0 = 18446744073709551616 := by decide
example : normalizeAmount "1500000000000000000" 18 = "1.500000000000000000" := by decide

/-! ## Lemmas about batch persistence -/

/-- The uniqueness key of the row a transfer is stored under. -/
def normKey (t : Transfer) : TransferKey := transferKey (normalizeTransfer t)

/-- The uniqueness keys of a batch, in order. -/
def normKeys (ts : List Transfer) : List TransferKey := ts.map normKey

lemma hasKey_iff_exists {db : List Transfer} {k : TransferKey} :
    hasKey db k = true ↔ ∃ r ∈ db, transferKey r = k := by
  simp [hasKey]

lemma countKey_append (db1 db2 : List Transfer) (k : TransferKey) :
    countKey (db1 ++ db2) k = countKey db1 k + countKey db2 k := by
  simp [countKey, List.filter_append]

lemma hasKey_iff_countKey_pos {db : List Transfer} {k : TransferKey} :
    hasKey db k = true ↔ 0 < countKey db k := by
  rw [hasKey_iff_exists]
  constructor
  · rintro ⟨r, hr, hk⟩
    exact List.length_pos_of_mem (List.mem_filter.2 ⟨hr, by simp [hk]⟩)
  · intro h
    rcases List.exists_mem_of_length_pos h with ⟨r, hr⟩
    rcases List.mem_filter.1 hr with ⟨h1, h2⟩
    exact ⟨r, h1, by simpa using h2⟩

lemma insertTransfer_of_hasKey {db : List Transfer} {t : Transfer}
    (h : hasKey db (normKey t) = true) : insertTransfer db t = db := by
  simp [insertTransfer, normKey] at h ⊢
  simp [h]

lemma insertTransfer_of_not_hasKey {db : List Transfer} {t : Transfer}
    (h : ¬hasKey db (normKey t) = true) :
    insertTransfer db t = db ++ [normalizeTransfer t] := by
  simp [insertTransfer, normKey] at h ⊢
  simp [h]

lemma countKey_norm_singleton (t : Transfer) (k : TransferKey) :
    countKey [normalizeTransfer t] k = if normKey t = k then 1 else 0 := by
  by_cases h : normKey t = k <;> simp [countKey, normKey] at h ⊢ <;> simp [h]

lemma mem_normKeys_cons_of_ne {t : Transfer} {ts : List Transfer} {k : TransferKey}
    (hkk : normKey t ≠ k) : (k ∈ normKeys (t :: ts)) ↔ k ∈ normKeys ts := by
  simp only [normKeys, List.map_cons, List.mem_cons]
  exact or_iff_right fun h => hkk h.symm

lemma countKey_foldl (ts : List Transfer) (db : List Transfer) (k : TransferKey) :
    countKey (ts.foldl insertTransfer db) k =
      if 0 < countKey db k then countKey db k
      else if k ∈ normKeys ts then 1 else 0 := by
  induction ts generalizing db with
  | nil =>
    by_cases h : 0 < countKey db k
    · simp [normKeys, h]
    · simp [normKeys, h]
      omega
  | cons t ts ih =>
    rw [List.foldl_cons, ih]
    by_cases hk : hasKey db (normKey t) = true
    · rw [insertTransfer_of_hasKey hk]
      by_cases hc : 0 < countKey db k
      · rw [if_pos hc, if_pos hc]
      · rw [if_neg hc, if_neg hc]
        have hkk : normKey t ≠ k := by
          intro e
          rw [hasKey_iff_countKey_pos, e] at hk
          exact hc hk
        simp only [mem_normKeys_cons_of_ne hkk]
    · rw [insertTransfer_of_not_hasKey hk, countKey_append, countKey_norm_singleton]
      have h0 : countKey db (normKey t) = 0 := by
        rw [hasKey_iff_countKey_pos] at hk
        omega
      by_cases hkk : normKey t = k
      · have hck : countKey db k = 0 := hkk ▸ h0
        rw [if_pos hkk, if_pos (by omega : 0 < countKey db k + 1),
          if_neg (by omega : ¬0 < countKey db k)]
        have hmem : k ∈ normKeys (t :: ts) := by
          rw [← hkk]
          exact List.mem_map_of_mem _ (by simp)
        rw [if_pos hmem]
        omega
      · rw [if_neg hkk, Nat.add_zero]
        simp only [mem_normKeys_cons_of_ne hkk]

lemma hasKey_foldl_of_mem {ts : List Transfer} {db : List Transfer} {t : Transfer}
    (h : t ∈ ts) : hasKey (ts.foldl insertTransfer db) (normKey t) = true := by
  rw [hasKey_iff_countKey_pos, countKey_foldl]
  have hm : normKey t ∈ normKeys ts := List.mem_map_of_mem _ h
  by_cases hc : 0 < countKey db (normKey t) <;> simp [hc, hm]

lemma hasKey_foldl_mono {ts : List Transfer} {db : List Transfer} {k : TransferKey}
    (h : hasKey db k = true) : hasKey (ts.foldl insertTransfer db) k = true := by
  rw [hasKey_iff_countKey_pos] at h ⊢
  rw [countKey_foldl]
  simp [h]

lemma foldl_insertTransfer_of_all_present {ts : List Transfer} {db : List Transfer}
    (h : ∀ t ∈ ts, hasKey db (normKey t) = true) :
    ts.foldl insertTransfer db = db := by
  induction ts with
  | nil => rfl
  | cons t ts ih =>
    rw [List.foldl_cons, insertTransfer_of_hasKey (h t (by simp))]
    exact ih fun t' ht' => h t' (by simp [ht'])

lemma runInserts_noFail (ts : List Transfer) (w : List Transfer) (i : Nat) :
    runInserts (fun _ => false) w ts i = some (ts.foldl insertTransfer w) := by
  induction ts generalizing w i with
  | nil => rfl
  | cons t ts ih => rw [runInserts, if_neg (by simp)]; exact ih _ _

lemma runInserts_ok {execFails : Nat → Bool} {ts w w' : List Transfer} {i : Nat}
    (h : runInserts execFails w ts i = some w') :
    w' = ts.foldl insertTransfer w := by
  induction ts generalizing w i with
  | nil => simpa [runInserts] using h.symm
  | cons t ts ih =>
    rw [runInserts] at h
    by_cases hf : execFails i = true
    · simp [hf] at h
    · rw [if_neg hf] at h
      exact ih h

lemma persistBatch_eq_foldl (db ts : List Transfer) :
    persistBatch db ts = ts.foldl insertTransfer db := by
  unfold persistBatch addTransfersBatch
  by_cases h : ts.isEmpty
  · rw [if_pos h]
    rw [List.isEmpty_iff] at h
    simp [h]
  · rw [if_neg h, runInserts_noFail]
    simp

lemma countKey_nil (k : TransferKey) : countKey [] k = 0 := rfl

lemma addTransfersBatch_noFail_err (db ts : List Transfer) :
    (addTransfersBatch (fun _ => false) false db ts).1 = none := by
  unfold addTransfersBatch
  by_cases h : ts.isEmpty
  · rw [if_pos h]
  · rw [if_neg h, runInserts_noFail]
    simp

/-- C1.  Batch persistence is idempotent: persisting a list of transfer
records into an empty ledger and then persisting the same list again
reports no error either time, leaves the ledger unchanged on the second
run, and stores exactly one row per unique (hash, asset, from, to)
uniqueness key occurring in the list; and over any starting ledger,
re-persisting the same batch is a no-op (records whose uniqueness key
already exists are silently skipped). -/
theorem claim_C1_batch_persistence_idempotent (ts : List Transfer) (k : TransferKey) :
    (addTransfersBatch (fun _ => false) false [] ts).1 = none ∧
    (addTransfersBatch (fun _ => false) false (persistBatch [] ts) ts).1 = none ∧
    persistBatch (persistBatch [] ts) ts = persistBatch [] ts ∧
    countKey (persistBatch (persistBatch [] ts) ts) k =
      (if k ∈ normKeys ts then 1 else 0) ∧
    ∀ db, persistBatch (persistBatch db ts) ts = persistBatch db ts := by
  have hidem : ∀ db, persistBatch (persistBatch db ts) ts = persistBatch db ts := by
    intro db
    rw [persistBatch_eq_foldl, persistBatch_eq_foldl]
    exact foldl_insertTransfer_of_all_present fun t ht => hasKey_foldl_of_mem ht
  refine ⟨addTransfersBatch_noFail_err _ _, addTransfersBatch_noFail_err _ _, hidem [], ?_, hidem⟩
  rw [hidem [], persistBatch_eq_foldl, countKey_foldl, countKey_nil]
  simp

/-- Witness for C1: a batch that contains the same uniqueness key twice
(differing only in letter case) is stored, twice over, as exactly one
row under that key. -/
theorem claim_C1_witness :
    countKey
      (persistBatch
        (persistBatch []
          [⟨"0xh1", 1, 10, "0xAA", "0xBB", "0xCC", "5"⟩,
           ⟨"0xh1", 1, 10, "0xaa", "0xbb", "0xcc", "5"⟩,
           ⟨"0xh2", 2, 20, "0xaa", "0xbb", "0xcc", "9"⟩])
        [⟨"0xh1", 1, 10, "0xAA", "0xBB", "0xCC", "5"⟩,
         ⟨"0xh1", 1, 10, "0xaa", "0xbb", "0xcc", "5"⟩,
         ⟨"0xh2", 2, 20, "0xaa", "0xbb", "0xcc", "9"⟩])
      ⟨"0xh1", "0xcc", "0xaa", "0xbb"⟩ = 1 := by
  have h :=
    (claim_C1_batch_persistence_idempotent
      [⟨"0xh1", 1, 10, "0xAA", "0xBB", "0xCC", "5"⟩,
       ⟨"0xh1", 1, 10, "0xaa", "0xbb", "0xcc", "5"⟩,
       ⟨"0xh2", 2, 20, "0xaa", "0xbb", "0xcc", "9"⟩]
      ⟨"0xh1", "0xcc", "0xaa", "0xbb"⟩).2.2.2.1
  rw [if_pos (by decide)] at h
  exact h

/-- C9.  Batch persistence is all-or-nothing: whatever the per-statement
and commit outcomes the database reports, either the call succeeds, the
visible table is the full fold of the batch into the previous table and
every record's uniqueness key is present in it, or the call reports an
error and the visible table is exactly the previous one — no partial
batch is ever visible. -/
theorem claim_C9_batch_all_or_nothing (execFails : Nat → Bool) (commitFails : Bool)
    (db ts : List Transfer) :
    ((addTransfersBatch execFails commitFails db ts).1 = none ∧
      (addTransfersBatch execFails commitFails db ts).2 = ts.foldl insertTransfer db ∧
      ∀ t ∈ ts,
        hasKey (addTransfersBatch execFails commitFails db ts).2 (normKey t) = true) ∨
    ((addTransfersBatch execFails commitFails db ts).1 ≠ none ∧
      (addTransfersBatch execFails commitFails db ts).2 = db) := by
  unfold addTransfersBatch
  by_cases he : ts.isEmpty
  · rw [List.isEmpty_iff] at he
    subst he
    left
    simp
  · rw [List.isEmpty_iff] at he
    rw [if_neg (by simpa [List.isEmpty_iff] using he)]
    cases hrun : runInserts execFails db ts 0 with
    | none => right; simp
    | some w =>
      have hw := runInserts_ok hrun
      cases commitFails with
      | true => right; simp
      | false =>
        left
        refine ⟨rfl, hw, fun t ht => ?_⟩
        simpa [hw] using @hasKey_foldl_of_mem ts db t ht


/-- Witness for C9: with a database that fails the first insert, the
visible table after a one-record batch is unchanged (the empty table). -/
theorem claim_C9_witness :
    (addTransfersBatch (fun _ => true) false []
      [⟨"0xh", 1, 5, "0xA", "0xB", "0xC", "7"⟩]).2 = [] := by
  rcases claim_C9_batch_all_or_nothing (fun _ => true) false []
      [⟨"0xh", 1, 5, "0xA", "0xB", "0xC", "7"⟩] with ⟨h1, _, _⟩ | ⟨_, h2⟩
  · exact absurd h1 (by decide)
  · exact h2

/-! ## Lemmas about the cursor resolver -/

lemma foldl_max_facts (xs : List Int) (a : Int) :
    a ≤ xs.foldl max a ∧ (∀ x ∈ xs, x ≤ xs.foldl max a) ∧
      (xs.foldl max a = a ∨ xs.foldl max a ∈ xs) := by
  induction xs generalizing a with
  | nil => exact ⟨le_refl a, by simp, Or.inl rfl⟩
  | cons x xs ih =>
    rcases ih (max a x) with ⟨h1, h2, h3⟩
    refine ⟨le_trans (le_max_left a x) h1, ?_, ?_⟩
    · intro y hy
      rcases List.mem_cons.1 hy with rfl | hy
      · exact le_trans (le_max_right a y) h1
      · exact h2 y hy
    · rcases h3 with h3 | h3
      · rcases max_choice a x with hm | hm
        · exact Or.inl (by rw [List.foldl_cons, h3, hm])
        · exact Or.inr (by rw [List.foldl_cons, h3, hm]; simp)
      · exact Or.inr (by simp [h3])

lemma foldl_min_facts (xs : List Int) (a : Int) :
    xs.foldl min a ≤ a ∧ (∀ x ∈ xs, xs.foldl min a ≤ x) ∧
      (xs.foldl min a = a ∨ xs.foldl min a ∈ xs) := by
  induction xs generalizing a with
  | nil => exact ⟨le_refl a, by simp, Or.inl rfl⟩
  | cons x xs ih =>
    rcases ih (min a x) with ⟨h1, h2, h3⟩
    refine ⟨le_trans h1 (min_le_left a x), ?_, ?_⟩
    · intro y hy
      rcases List.mem_cons.1 hy with rfl | hy
      · exact le_trans h1 (min_le_right a y)
      · exact h2 y hy
    · rcases h3 with h3 | h3
      · rcases min_choice a x with hm | hm
        · exact Or.inl (by rw [List.foldl_cons, h3, hm])
        · exact Or.inr (by rw [List.foldl_cons, h3, hm]; simp)
      · exact Or.inr (by simp [h3])

lemma le_sqlMaxCoalesce {l : List Int} {x : Int} (h : x ∈ l) : x ≤ sqlMaxCoalesce l := by
  cases l with
  | nil => cases h
  | cons a xs =>
    rcases List.mem_cons.1 h with rfl | h
    · exact (foldl_max_facts xs x).1
    · exact (foldl_max_facts xs a).2.1 x h

lemma sqlMaxCoalesce_mem {l : List Int} (h : l ≠ []) : sqlMaxCoalesce l ∈ l := by
  cases l with
  | nil => exact absurd rfl h
  | cons a xs =>
    rcases (foldl_max_facts xs a).2.2 with h3 | h3
    · exact List.mem_cons.2 (Or.inl h3)
    · exact List.mem_cons.2 (Or.inr h3)

lemma sqlMinCoalesce_le {l : List Int} {x : Int} (h : x ∈ l) : sqlMinCoalesce l ≤ x := by
  cases l with
  | nil => cases h
  | cons a xs =>
    rcases List.mem_cons.1 h with rfl | h
    · exact (foldl_min_facts xs x).1
    · exact (foldl_min_facts xs a).2.1 x h

lemma sqlMinCoalesce_mem {l : List Int} (h : l ≠ []) : sqlMinCoalesce l ∈ l := by
  cases l with
  | nil => exact absurd rfl h
  | cons a xs =>
    rcases (foldl_min_facts xs a).2.2 with h3 | h3
    · exact List.mem_cons.2 (Or.inl h3)
    · exact List.mem_cons.2 (Or.inr h3)

lemma mem_filterMap_blocks {db : List Transfer} {p : Transfer → Bool} {x : Int} :
    x ∈ (db.filter p).map (·.blockNumber) ↔
      ∃ r, r ∈ db ∧ p r = true ∧ r.blockNumber = x := by
  simp only [List.mem_map, List.mem_filter]
  constructor
  · rintro ⟨r, ⟨h1, h2⟩, h3⟩
    exact ⟨r, h1, h2, h3⟩
  · rintro ⟨r, h1, h2, h3⟩
    exact ⟨r, ⟨h1, h2⟩, h3⟩

lemma getLastProcessedBlock_native (db : List Transfer) (address : String) :
    getLastProcessedBlock db address zeroAddress =
      sqlMaxCoalesce
        ((db.filter fun r =>
            matchesAddr (toLowerStr address) r && decide (r.tokenAddress = zeroAddress)).map
          (·.blockNumber)) := by
  unfold getLastProcessedBlock
  rw [if_pos (Or.inr (by decide))]

lemma mem_distinctTokens_iff {db : List Transfer} {a tk : String} :
    tk ∈ distinctTokens db a ↔
      ∃ r, r ∈ db ∧ matchesAddr a r = true ∧ r.tokenAddress ≠ zeroAddress ∧
        r.tokenAddress = tk := by
  unfold distinctTokens
  rw [List.mem_dedup]
  simp only [List.mem_map, List.mem_filter, Bool.and_eq_true, Bool.not_eq_true',
    decide_eq_false_iff_not]
  constructor
  · rintro ⟨r, ⟨h1, h2, h3⟩, h4⟩
    exact ⟨r, h1, h2, h3, h4⟩
  · rintro ⟨r, h1, h2, h3, h4⟩
    exact ⟨r, ⟨h1, h2, h3⟩, h4⟩

/-- "A non-native asset `tk` has been seen for (lower-cased) address
`a`": the spec-side description of the aggregate cursor's domain. -/
def tokenSeen (db : List Transfer) (a tk : String) : Prop :=
  tk ≠ zeroAddress ∧ ∃ r, r ∈ db ∧ matchesAddr a r = true ∧ r.tokenAddress = tk

lemma tokenSeen_iff_mem_distinctTokens {db : List Transfer} {a tk : String} :
    tokenSeen db a tk ↔ tk ∈ distinctTokens db a := by
  rw [mem_distinctTokens_iff]
  constructor
  · rintro ⟨hne, r, h1, h2, h3⟩
    exact ⟨r, h1, h2, h3 ▸ hne, h3⟩
  · rintro ⟨r, h1, h2, h3, h4⟩
    exact ⟨h4 ▸ h3, r, h1, h2, h4⟩

/-- The C2 example store: address `0xaaa` has token `0xt1` rows at
blocks 100 and 70, a token `0xt2` row at block 50, and a native row at
block 7. -/
def exDbC2 : List Transfer :=
  [⟨"h1", 100, 0, "0xaaa", "0xzz", "0xt1", "1"⟩,
   ⟨"h2", 70, 0, "0xzz", "0xaaa", "0xt1", "1"⟩,
   ⟨"h3", 50, 0, "0xaaa", "0xzz", "0xt2", "1"⟩,
   ⟨"h4", 7, 0, "0xaaa", "0xzz", "0x0000000000000000000000000000000000000000", "1"⟩]

/-- C2.  The cursor resolver: for the native class the result is an
upper bound on, and (when any native row for the address exists) is
attained by, the block numbers of the persisted rows where the address
appears as sender or receiver with the native sentinel asset, and is 0
when there are none; for the aggregate-token class the result is a lower
bound on every seen non-native asset's maximum block number, is attained
by one of them when any non-native row exists, and is 0 otherwise —
where each asset's `tokenMaxBlock` is itself the attained maximum of
that asset's block numbers.  Concretely, token maxima 100 and 50 resolve
to 50, and the native rows of `exDbC2` resolve to 7. -/
theorem claim_C2_cursor_resolver :
    (∀ (db : List Transfer) (address : String),
      (∀ r ∈ db, matchesAddr (toLowerStr address) r = true → r.tokenAddress = zeroAddress →
        r.blockNumber ≤ getLastProcessedBlock db address zeroAddress) ∧
      ((∃ r, r ∈ db ∧ matchesAddr (toLowerStr address) r = true ∧
          r.tokenAddress = zeroAddress ∧
          r.blockNumber = getLastProcessedBlock db address zeroAddress) ∨
        (getLastProcessedBlock db address zeroAddress = 0 ∧
          ∀ r ∈ db, ¬(matchesAddr (toLowerStr address) r = true ∧
            r.tokenAddress = zeroAddress)))) ∧
    (∀ (db : List Transfer) (address : String),
      (∀ tk, tokenSeen db (toLowerStr address) tk →
        getLastProcessedBlockForERC20 db address ≤ tokenMaxBlock db (toLowerStr address) tk) ∧
      ((∃ tk, tokenSeen db (toLowerStr address) tk ∧
          tokenMaxBlock db (toLowerStr address) tk = getLastProcessedBlockForERC20 db address) ∨
        (getLastProcessedBlockForERC20 db address = 0 ∧
          ∀ r ∈ db, ¬(matchesAddr (toLowerStr address) r = true ∧
            r.tokenAddress ≠ zeroAddress))) ∧
      (∀ tk, tokenSeen db (toLowerStr address) tk →
        (∀ r ∈ db, matchesAddr (toLowerStr address) r = true → r.tokenAddress = tk →
          r.blockNumber ≤ tokenMaxBlock db (toLowerStr address) tk) ∧
        ∃ r, r ∈ db ∧ matchesAddr (toLowerStr address) r = true ∧ r.tokenAddress = tk ∧
          r.blockNumber = tokenMaxBlock db (toLowerStr address) tk)) ∧
    getLastProcessedBlockForERC20 exDbC2 "0xAAA" = 50 ∧
    getLastProcessedBlock exDbC2 "0xAAA" zeroAddress = 7 := by
  refine ⟨?_, ?_, by decide, by decide⟩
  · intro db address
    rw [getLastProcessedBlock_native]
    constructor
    · intro r hr hm htk
      exact le_sqlMaxCoalesce (mem_filterMap_blocks.2 ⟨r, hr, by simp [hm, htk], rfl⟩)
    · by_cases hnil : ((db.filter fun r =>
          matchesAddr (toLowerStr address) r && decide (r.tokenAddress = zeroAddress)).map
          (·.blockNumber)) = []
      · right
        refine ⟨by rw [hnil]; rfl, ?_⟩
        intro r hr ⟨hm, htk⟩
        have : r.blockNumber ∈ ((db.filter fun r =>
            matchesAddr (toLowerStr address) r && decide (r.tokenAddress = zeroAddress)).map
            (·.blockNumber)) :=
          mem_filterMap_blocks.2 ⟨r, hr, by simp [hm, htk], rfl⟩
        rw [hnil] at this
        cases this
      · left
        rcases mem_filterMap_blocks.1 (sqlMaxCoalesce_mem hnil) with ⟨r, h1, h2, h3⟩
        rw [Bool.and_eq_true] at h2
        rcases h2 with ⟨hm, htk⟩
        exact ⟨r, h1, hm, by simpa using htk, h3⟩
  · intro db address
    have hunf : getLastProcessedBlockForERC20 db address =
        sqlMinCoalesce ((distinctTokens db (toLowerStr address)).map
          (tokenMaxBlock db (toLowerStr address))) := rfl
    refine ⟨?_, ?_, ?_⟩
    · intro tk hseen
      rw [hunf]
      exact sqlMinCoalesce_le
        (List.mem_map_of_mem _ (tokenSeen_iff_mem_distinctTokens.1 hseen))
    · by_cases hnil : distinctTokens db (toLowerStr address) = []
      · right
        constructor
        · rw [hunf, hnil]; rfl
        · intro r hr ⟨hm, htk⟩
          have : r.tokenAddress ∈ distinctTokens db (toLowerStr address) :=
            mem_distinctTokens_iff.2 ⟨r, hr, hm, htk, rfl⟩
          rw [hnil] at this
          cases this
      · left
        have hmem : sqlMinCoalesce ((distinctTokens db (toLowerStr address)).map
            (tokenMaxBlock db (toLowerStr address))) ∈
            (distinctTokens db (toLowerStr address)).map
              (tokenMaxBlock db (toLowerStr address)) :=
          sqlMinCoalesce_mem (by simpa using hnil)
        rcases List.mem_map.1 hmem with ⟨tk, htk, hval⟩
        exact ⟨tk, tokenSeen_iff_mem_distinctTokens.2 htk, by rw [hval, hunf]⟩
    · intro tk hseen
      constructor
      · intro r hr hm htk
        exact le_sqlMaxCoalesce (mem_filterMap_blocks.2 ⟨r, hr, by simp [hm, htk], rfl⟩)
      · rcases hseen with ⟨-, r0, hr0, hm0, htk0⟩
        have hne : ((db.filter fun r =>
            matchesAddr (toLowerStr address) r && decide (r.tokenAddress = tk)).map
            (·.blockNumber)) ≠ [] := by
          intro hnil
          have : r0.blockNumber ∈ ((db.filter fun r =>
              matchesAddr (toLowerStr address) r && decide (r.tokenAddress = tk)).map
              (·.blockNumber)) :=
            mem_filterMap_blocks.2 ⟨r0, hr0, by simp [hm0, htk0], rfl⟩
          rw [hnil] at this
          cases this
        rcases mem_filterMap_blocks.1 (sqlMaxCoalesce_mem hne) with ⟨r, h1, h2, h3⟩
        rw [Bool.and_eq_true] at h2
        rcases h2 with ⟨hm, htk⟩
        exact ⟨r, h1, hm, by simpa using htk, h3⟩

/-- Witness for C2: the aggregate-token cursor of the example store
(token maxima 100 and 50) resolves to 50. -/
theorem claim_C2_witness : getLastProcessedBlockForERC20 exDbC2 "0xAAA" = 50 :=
  claim_C2_cursor_resolver.2.2.1

/-! ## Lemmas about the sync coordinator -/

lemma persistBatch_hasKey_mono {db ts : List Transfer} {k : TransferKey}
    (h : hasKey db k = true) : hasKey (persistBatch db ts) k = true := by
  rw [persistBatch_eq_foldl]
  exact hasKey_foldl_mono h

lemma persistBatch_hasKey_of_mem {db ts : List Transfer} {t : Transfer}
    (h : t ∈ ts) : hasKey (persistBatch db ts) (normKey t) = true := by
  rw [persistBatch_eq_foldl]
  exact hasKey_foldl_of_mem h

lemma syncAddress_hasKey_mono {env : SyncEnv} {st : SyncState} {a : String}
    {k : TransferKey} (h : hasKey st.db k = true) :
    hasKey (syncAddress env st a).db k = true := by
  unfold syncAddress
  split
  · exact h
  · dsimp only
    split
    · exact persistBatch_hasKey_mono h
    · exact persistBatch_hasKey_mono (persistBatch_hasKey_mono h)

lemma foldl_syncAddress_hasKey_mono {env : SyncEnv} {addrs : List String}
    {st : SyncState} {k : TransferKey} (h : hasKey st.db k = true) :
    hasKey (addrs.foldl (syncAddress env) st).db k = true := by
  induction addrs generalizing st with
  | nil => exact h
  | cons a addrs ih => exact ih (syncAddress_hasKey_mono h)

lemma syncAddress_persists {env : SyncEnv} {st : SyncState} {a : String}
    {txsE : List ETHTransaction} {txsT : List ERC20Transaction}
    (hE : ∀ b, env.fetchETH a b = .ok txsE)
    (hT : ∀ b, env.fetchERC20 a b = .ok txsT) :
    (∀ t ∈ processETHTransactions txsE,
      hasKey (syncAddress env st a).db (normKey t) = true) ∧
    (∀ t ∈ processERC20Transactions txsT,
      hasKey (syncAddress env st a).db (normKey t) = true) := by
  unfold syncAddress
  simp only [hE, hT]
  constructor
  · intro t ht
    exact persistBatch_hasKey_mono (persistBatch_hasKey_of_mem ht)
  · intro t ht
    exact persistBatch_hasKey_of_mem ht

/-- C3.  Partial-failure isolation of the sync coordinator: whatever the
fetch environment does, `syncAll` never returns an error (a single
address's failure never makes the run abort or return that error); and
every address whose two fetches succeed gets all of its normalized
records persisted — in particular, with three addresses whose second
fetch fails, the first and third addresses' results are stored. -/
theorem claim_C3_partial_failure_isolation (env : SyncEnv) (addrs : List String)
    (nowStr : String) (st : SyncState) :
    (syncAll env addrs nowStr st).1 = none ∧
    ∀ a ∈ addrs, ∀ (txsE : List ETHTransaction) (txsT : List ERC20Transaction),
      (∀ b, env.fetchETH a b = .ok txsE) →
      (∀ b, env.fetchERC20 a b = .ok txsT) →
      (∀ t ∈ processETHTransactions txsE,
        hasKey (syncAll env addrs nowStr st).2.db (normKey t) = true) ∧
      (∀ t ∈ processERC20Transactions txsT,
        hasKey (syncAll env addrs nowStr st).2.db (normKey t) = true) := by
  unfold syncAll
  by_cases he : addrs.isEmpty
  · rw [if_pos he]
    rw [List.isEmpty_iff] at he
    subst he
    exact ⟨rfl, by simp⟩
  · rw [if_neg he]
    refine ⟨rfl, ?_⟩
    intro a ha txsE txsT hE hT
    rcases List.append_of_mem ha with ⟨l1, l2, rfl⟩
    rw [List.foldl_append, List.foldl_cons]
    rcases @syncAddress_persists env (l1.foldl (syncAddress env) st) a txsE txsT hE hT
      with ⟨hA, hB⟩
    exact ⟨fun t ht => foldl_syncAddress_hasKey_mono (hA t ht),
      fun t ht => foldl_syncAddress_hasKey_mono (hB t ht)⟩

/-- The C3 example environment: the fetch for address `0xb2` raises a
transport error; the fetches for `0xb1` and `0xb3` return one native
transaction each. -/
def envC3 : SyncEnv where
  fetchETH := fun a _ =>
    if a = "0xb2" then .error "transport error"
    else if a = "0xb1" then .ok [⟨"1", "100", "0xh1", "0xb1", "0xd", "5", "0"⟩]
    else .ok [⟨"1", "100", "0xh3", "0xb3", "0xd", "5", "0"⟩]
  fetchERC20 := fun _ _ => .ok []

/-- Witness for C3: with three tracked addresses whose second fetch
fails, `syncAll` returns no error and the first and third addresses'
records are persisted. -/
theorem claim_C3_witness :
    (syncAll envC3 ["0xb1", "0xb2", "0xb3"] "T" ⟨[], []⟩).1 = none ∧
    hasKey (syncAll envC3 ["0xb1", "0xb2", "0xb3"] "T" ⟨[], []⟩).2.db
      ⟨"0xh1", zeroAddress, "0xb1", "0xd"⟩ = true ∧
    hasKey (syncAll envC3 ["0xb1", "0xb2", "0xb3"] "T" ⟨[], []⟩).2.db
      ⟨"0xh3", zeroAddress, "0xb3", "0xd"⟩ = true := by
  have h := claim_C3_partial_failure_isolation envC3 ["0xb1", "0xb2", "0xb3"] "T" ⟨[], []⟩
  refine ⟨h.1, ?_, ?_⟩
  · exact (h.2 "0xb1" (by decide) [⟨"1", "100", "0xh1", "0xb1", "0xd", "5", "0"⟩] []
      (fun _ => rfl) (fun _ => rfl)).1 ⟨"0xh1", 1, 100, "0xb1", "0xd", zeroAddress, "5"⟩
      (by decide)
  · exact (h.2 "0xb3" (by decide) [⟨"1", "100", "0xh3", "0xb3", "0xd", "5", "0"⟩] []
      (fun _ => rfl) (fun _ => rfl)).1 ⟨"0xh3", 1, 100, "0xb3", "0xd", zeroAddress, "5"⟩
      (by decide)

/-! ## Lemmas about the config upsert, and C4 -/

lemma getConfig_cons (p : String × String) (ps : Config) (k : String) :
    getConfig (p :: ps) k = if p.1 = k then some p.2 else getConfig ps k := by
  by_cases h : p.1 = k <;> simp [getConfig, List.find?, h]

lemma getConfig_map_set_ne {cfg : Config} {k k' v : String} (hne : k' ≠ k) :
    getConfig (cfg.map fun p => if p.1 = k then (p.1, v) else p) k' = getConfig cfg k' := by
  induction cfg with
  | nil => rfl
  | cons p ps ih =>
    by_cases hp : p.1 = k
    · have h1 : ¬p.1 = k' := fun h => hne (h.symm.trans hp)
      rw [List.map_cons, if_pos hp, getConfig_cons, getConfig_cons, if_neg h1, if_neg h1]
      exact ih
    · rw [List.map_cons, if_neg hp, getConfig_cons, getConfig_cons]
      by_cases hd : p.1 = k'
      · rw [if_pos hd, if_pos hd]
      · rw [if_neg hd, if_neg hd]
        exact ih

lemma getConfig_map_set_self {cfg : Config} {k v : String}
    (hany : (cfg.any fun p => decide (p.1 = k)) = true) :
    getConfig (cfg.map fun p => if p.1 = k then (p.1, v) else p) k = some v := by
  induction cfg with
  | nil => simp at hany
  | cons p ps ih =>
    by_cases hp : p.1 = k
    · rw [List.map_cons, if_pos hp, getConfig_cons, if_pos hp]
    · rw [List.map_cons, if_neg hp, getConfig_cons, if_neg hp]
      exact ih (by simpa [hp] using hany)

lemma getConfig_append_single_self {cfg : Config} {k v : String}
    (hany : (cfg.any fun p => decide (p.1 = k)) = false) :
    getConfig (cfg ++ [(k, v)]) k = some v := by
  induction cfg with
  | nil => simp [getConfig_cons]
  | cons p ps ih =>
    simp only [List.any_cons, Bool.or_eq_false_iff] at hany
    have hp : ¬p.1 = k := by simpa using hany.1
    rw [List.cons_append, getConfig_cons, if_neg hp]
    exact ih hany.2

lemma getConfig_append_single_ne {cfg : Config} {k k' v : String} (hne : k' ≠ k) :
    getConfig (cfg ++ [(k, v)]) k' = getConfig cfg k' := by
  induction cfg with
  | nil =>
    rw [List.nil_append, getConfig_cons, if_neg (fun h => hne h.symm)]
  | cons p ps ih =>
    rw [List.cons_append, getConfig_cons, getConfig_cons]
    by_cases hd : p.1 = k'
    · rw [if_pos hd, if_pos hd]
    · rw [if_neg hd, if_neg hd]
      exact ih

lemma getConfig_updateConfig_self (cfg : Config) (k v : String) :
    getConfig (updateConfig cfg k v) k = some v := by
  unfold updateConfig
  by_cases hany : (cfg.any fun p => decide (p.1 = k)) = true
  · rw [if_pos hany]
    exact getConfig_map_set_self hany
  · rw [if_neg hany]
    exact getConfig_append_single_self (Bool.eq_false_iff.mpr hany)

lemma getConfig_updateConfig_ne {cfg : Config} {k k' v : String} (hne : k' ≠ k) :
    getConfig (updateConfig cfg k v) k' = getConfig cfg k' := by
  unfold updateConfig
  by_cases hany : (cfg.any fun p => decide (p.1 = k)) = true
  · rw [if_pos hany]
    exact getConfig_map_set_ne hne
  · rw [if_neg hany]
    exact getConfig_append_single_ne hne

/-- C4, amended.  Every `syncAll` run that finds at least one tracked
source address stamps both the "last native update" and "last token
update" freshness markers with the current time, regardless of whether
individual addresses failed mid-run. -/
theorem claim_C4_markers_stamped (env : SyncEnv) (addrs : List String)
    (nowStr : String) (st : SyncState) (h : addrs ≠ []) :
    getConfig (syncAll env addrs nowStr st).2.config configKeyLastETHUpdate = some nowStr ∧
    getConfig (syncAll env addrs nowStr st).2.config configKeyLastTokenUpdate = some nowStr := by
  unfold syncAll
  rw [if_neg (by simpa [List.isEmpty_iff] using h)]
  constructor
  · rw [getConfig_updateConfig_ne (by decide), getConfig_updateConfig_self]
  · rw [getConfig_updateConfig_self]

/-- A fetch environment that always succeeds with empty pages. -/
def envTrivial : SyncEnv where
  fetchETH := fun _ _ => .ok []
  fetchERC20 := fun _ _ => .ok []

/-- Counterexample to C4 as stated: a `syncAll` run over an empty
tracked-address set completes successfully, yet neither freshness marker
is stamped (both remain absent from the config store). -/
theorem claim_C4_counterexample :
    (syncAll envTrivial [] "2026-01-01T00:00:00Z" ⟨[], []⟩).1 = none ∧
    getConfig (syncAll envTrivial [] "2026-01-01T00:00:00Z" ⟨[], []⟩).2.config
      configKeyLastETHUpdate = none ∧
    getConfig (syncAll envTrivial [] "2026-01-01T00:00:00Z" ⟨[], []⟩).2.config
      configKeyLastTokenUpdate = none :=
  ⟨rfl, rfl, rfl⟩

/-- Witness for C4 (amended): a one-address run — here one whose single
fetch fails — stamps the native marker with the current time. -/
theorem claim_C4_witness :
    getConfig (syncAll envC3 ["0xb2"] "2026-01-01T00:00:00Z" ⟨[], []⟩).2.config
      configKeyLastETHUpdate = some "2026-01-01T00:00:00Z" :=
  (claim_C4_markers_stamped envC3 ["0xb2"] "2026-01-01T00:00:00Z" ⟨[], []⟩
    (by simp)).1

/-! ## Refresh policy (C6) and daily trigger (C8) -/

/-- The C6 example config: marker parsed as time 0, interval 1 hour. -/
def cfgC6 : Config :=
  [("last_eth_update", "T0"), ("min_refresh_interval_hours", "1")]

/-- The C6 example RFC3339 parser: only the stored marker parses. -/
def parseC6 (s : String) : Option Int :=
  if s = "T0" then some 0 else none

/-- C6.  Cooldown gating: `ShouldRefreshData` returns `true` exactly
when the "last native update" marker is missing, fails to parse, or the
elapsed time strictly exceeds the configured minimum-refresh-interval in
hours (itself defaulting to 1 on a missing or unparseable config value);
with the marker at time 0 and a 1-hour interval, it is `false` at 59
minutes, `true` at 61 minutes, and `true` with an empty config store. -/
theorem claim_C6_cooldown_gating :
    (∀ (cfg : Config) (parseRFC3339 : String → Option Int) (now : Int),
      shouldRefreshData cfg parseRFC3339 now = true ↔
        (getConfig cfg configKeyLastETHUpdate = none ∨
          (∃ s, getConfig cfg configKeyLastETHUpdate = some s ∧ parseRFC3339 s = none) ∨
          (∃ s t, getConfig cfg configKeyLastETHUpdate = some s ∧ parseRFC3339 s = some t ∧
            now - t > getRefreshInterval cfg * 3600 * 1000000000))) ∧
    shouldRefreshData cfgC6 parseC6 (59 * 60 * 1000000000) = false ∧
    shouldRefreshData cfgC6 parseC6 (61 * 60 * 1000000000) = true ∧
    shouldRefreshData [] parseC6 0 = true := by
  refine ⟨?_, by decide, by decide, rfl⟩
  intro cfg parse now
  unfold shouldRefreshData
  cases hc : getConfig cfg configKeyLastETHUpdate with
  | none => simp [hc]
  | some s =>
    cases hp : parse s with
    | none => simp [hc, hp]
    | some t => simp [hc, hp]

/-- Witness for C6: at 61 minutes past a marker parsed as time 0 with a
1-hour interval, a refresh is due. -/
theorem claim_C6_witness :
    shouldRefreshData cfgC6 parseC6 (61 * 60 * 1000000000) = true :=
  (claim_C6_cooldown_gating.1 cfgC6 parseC6 (61 * 60 * 1000000000)).mpr
    (Or.inr (Or.inr ⟨"T0", 0, rfl, rfl, by decide⟩))

/-- C8.  Daily trigger exactness: a scheduler wake triggers the daily
update iff the current wall-clock hour and minute equal the configured
daily-refresh-time's hour and minute, with the seconds of both ignored;
with daily-refresh-time `"09:00:00"`, a wake at 09:00:30 triggers while
wakes at 08:59:30 and 09:01:30 do not. -/
theorem claim_C8_daily_trigger_exact :
    (∀ (timeStr : String) (h m s nowH nowM nowS : Nat),
      parseHMS timeStr = some (h, m, s) →
      (shouldRunDailyUpdate timeStr nowH nowM nowS = true ↔ (nowH = h ∧ nowM = m))) ∧
    shouldRunDailyUpdate "09:00:00" 9 0 30 = true ∧
    shouldRunDailyUpdate "09:00:00" 8 59 30 = false ∧
    shouldRunDailyUpdate "09:00:00" 9 1 30 = false := by
  refine ⟨?_, by decide, by decide, by decide⟩
  intro timeStr h m s nowH nowM nowS hp
  unfold shouldRunDailyUpdate
  rw [hp]
  simp

/-- Witness for C8: a wake at 09:00:30 with daily-refresh-time
`"09:00:00"` triggers (seconds ignored). -/
theorem claim_C8_witness : shouldRunDailyUpdate "09:00:00" 9 0 30 = true :=
  (claim_C8_daily_trigger_exact.1 "09:00:00" 9 0 0 9 0 30 (by decide)).mpr ⟨rfl, rfl⟩

/-! ## Lemmas about the paginated fetcher's window filter (C7) -/

lemma mem_filterByWindow {α : Type} {timeStampOf : α → String} {s e : Int}
    {l : List α} {tx : α} :
    tx ∈ filterByWindow timeStampOf s e l ↔
      tx ∈ l ∧ ∃ ts, parseInt64? (timeStampOf tx) = some ts ∧ s ≤ ts ∧ ts ≤ e := by
  unfold filterByWindow
  rw [List.mem_filter]
  constructor
  · rintro ⟨h1, h2⟩
    refine ⟨h1, ?_⟩
    cases hp : parseInt64? (timeStampOf tx) with
    | none => rw [hp] at h2; cases h2
    | some ts =>
      rw [hp] at h2
      exact ⟨ts, rfl, of_decide_eq_true h2⟩
  · rintro ⟨h1, ts, hp, h2, h3⟩
    exact ⟨h1, by rw [hp]; exact decide_eq_true ⟨h2, h3⟩⟩

lemma fetchPagesLoop_sound {α : Type} {timeStampOf : α → String}
    {pages : Nat → Except String (List α)} {s e : Int} {off : Nat} :
    ∀ {fuel page : Nat} {acc res : List α},
      (∀ tx ∈ acc, ∃ ts, parseInt64? (timeStampOf tx) = some ts ∧ s ≤ ts ∧ ts ≤ e) →
      fetchPagesLoop timeStampOf pages s e off fuel page acc = .ok res →
      ∀ tx ∈ res, ∃ ts, parseInt64? (timeStampOf tx) = some ts ∧ s ≤ ts ∧ ts ≤ e := by
  intro fuel
  induction fuel with
  | zero => intro page acc res _ h; cases h
  | succ fuel ih =>
    intro page acc res hacc h
    rw [fetchPagesLoop] at h
    cases hp : pages page with
    | error err => rw [hp] at h; cases h
    | ok txs =>
      rw [hp] at h
      dsimp only at h
      have hacc' : ∀ tx ∈ acc ++ filterByWindow timeStampOf s e txs,
          ∃ ts, parseInt64? (timeStampOf tx) = some ts ∧ s ≤ ts ∧ ts ≤ e := by
        intro tx htx
        rcases List.mem_append.1 htx with htx | htx
        · exact hacc tx htx
        · exact (mem_filterByWindow.1 htx).2
      by_cases hlen : txs.length < off
      · rw [if_pos hlen] at h
        cases h
        exact hacc'
      · rw [if_neg hlen] at h
        exact ih hacc' h

lemma fetchPagesLoop_acc_subset {α : Type} {timeStampOf : α → String}
    {pages : Nat → Except String (List α)} {s e : Int} {off : Nat} :
    ∀ {fuel page : Nat} {acc res : List α},
      fetchPagesLoop timeStampOf pages s e off fuel page acc = .ok res →
      ∀ tx ∈ acc, tx ∈ res := by
  intro fuel
  induction fuel with
  | zero => intro page acc res h; cases h
  | succ fuel ih =>
    intro page acc res h
    rw [fetchPagesLoop] at h
    cases hp : pages page with
    | error err => rw [hp] at h; cases h
    | ok txs =>
      rw [hp] at h
      dsimp only at h
      by_cases hlen : txs.length < off
      · rw [if_pos hlen] at h
        cases h
        intro tx htx
        exact List.mem_append.2 (Or.inl htx)
      · rw [if_neg hlen] at h
        intro tx htx
        exact ih h tx (List.mem_append.2 (Or.inl htx))

lemma fetchPagesLoop_first_page {α : Type} {timeStampOf : α → String}
    {pages : Nat → Except String (List α)} {s e : Int} {off fuel : Nat}
    {res l : List α}
    (h : fetchPagesLoop timeStampOf pages s e off fuel 1 [] = .ok res)
    (hl : pages 1 = .ok l) :
    ∀ tx ∈ filterByWindow timeStampOf s e l, tx ∈ res := by
  cases fuel with
  | zero => cases h
  | succ fuel =>
    rw [fetchPagesLoop, hl] at h
    dsimp only at h
    by_cases hlen : l.length < off
    · rw [if_pos hlen] at h
      cases h
      intro tx htx
      exact List.mem_append.2 (Or.inr htx)
    · rw [if_neg hlen] at h
      intro tx htx
      exact fetchPagesLoop_acc_subset h tx (List.mem_append.2 (Or.inr htx))

/-- C7.  Window filtering is inclusive on both bounds and applied
locally: whenever a fetch (native or token) succeeds, every returned
transaction carries a parseable timestamp inside `[startT, endT]` — so
one on any upstream page with a timestamp before `startT` or after
`endT` is excluded — and every first-page transaction whose timestamp
lies inside the window (in particular exactly at `startT` or at `endT`)
appears in the returned sequence. -/
theorem claim_C7_window_filtering :
    (∀ (pages : Nat → Except String (List ETHTransaction)) (startT endT : Int)
        (fuel : Nat) (res : List ETHTransaction),
      fetchETHTransactions pages startT endT fuel = .ok res →
      (∀ tx ∈ res, ∃ ts, parseInt64? tx.timeStamp = some ts ∧ startT ≤ ts ∧ ts ≤ endT) ∧
      (∀ l, pages 1 = .ok l → ∀ tx ∈ l, ∀ ts, parseInt64? tx.timeStamp = some ts →
        startT ≤ ts → ts ≤ endT → tx ∈ res)) ∧
    (∀ (pages : Nat → Except String (List ERC20Transaction)) (startT endT : Int)
        (fuel : Nat) (res : List ERC20Transaction),
      fetchERC20Transactions pages startT endT fuel = .ok res →
      (∀ tx ∈ res, ∃ ts, parseInt64? tx.timeStamp = some ts ∧ startT ≤ ts ∧ ts ≤ endT) ∧
      (∀ l, pages 1 = .ok l → ∀ tx ∈ l, ∀ ts, parseInt64? tx.timeStamp = some ts →
        startT ≤ ts → ts ≤ endT → tx ∈ res)) := by
  constructor
  · intro pages startT endT fuel res h
    refine ⟨fetchPagesLoop_sound (by simp) h, ?_⟩
    intro l hl tx htx ts hts h1 h2
    exact fetchPagesLoop_first_page h hl tx (mem_filterByWindow.2 ⟨htx, ts, hts, h1, h2⟩)
  · intro pages startT endT fuel res h
    refine ⟨fetchPagesLoop_sound (by simp) h, ?_⟩
    intro l hl tx htx ts hts h1 h2
    exact fetchPagesLoop_first_page h hl tx (mem_filterByWindow.2 ⟨htx, ts, hts, h1, h2⟩)

/-- The C7 example upstream: one short page holding transactions at
times 99 (before the window), 100 (the lower bound) and 250 (the upper
bound). -/
def pagesC7 : Nat → Except String (List ETHTransaction) := fun p =>
  if p = 1 then
    .ok [⟨"1", "99", "0xh0", "0xa", "0xb", "1", "0"⟩,
         ⟨"1", "100", "0xh1", "0xa", "0xb", "1", "0"⟩,
         ⟨"1", "250", "0xh2", "0xa", "0xb", "1", "0"⟩]
  else .error "no page"

/-- What the fetch over `pagesC7` with window `[100, 250]` returns: the
transaction at 99 is excluded, those at the bounds are kept. -/
def resC7 : List ETHTransaction :=
  [⟨"1", "100", "0xh1", "0xa", "0xb", "1", "0"⟩,
   ⟨"1", "250", "0xh2", "0xa", "0xb", "1", "0"⟩]

/-- Witness for C7: over `pagesC7` with window `[100, 250]` the fetch
succeeds with `resC7`, and the bound-timestamp transaction's membership
follows from the inclusion half of the claim. -/
theorem claim_C7_witness :
    fetchETHTransactions pagesC7 100 250 5 = .ok resC7 ∧
    (⟨"1", "100", "0xh1", "0xa", "0xb", "1", "0"⟩ : ETHTransaction) ∈ resC7 := by
  have hfetch : fetchETHTransactions pagesC7 100 250 5 = .ok resC7 := rfl
  refine ⟨hfetch, ?_⟩
  exact (claim_C7_window_filtering.1 pagesC7 100 250 5 resC7 hfetch).2 _ rfl
    ⟨"1", "100", "0xh1", "0xa", "0xb", "1", "0"⟩ (by decide) 100 (by decide)
    (by decide) (by decide)

/-! ## C10: status filtering differs between the native and token paths -/

/-- The common normalization with no success-status check (what the ETH
path would do if it did not consult the upstream is-error flag — and
exactly what the ERC20 path does, the `ERC20Transaction` record carrying
no such flag at all). -/
def ethTxToTransferNoStatus? (tx : ETHTransaction) : Option Transfer :=
  match parseInt64? tx.blockNumber, parseInt64? tx.timeStamp with
  | some b, some ts =>
    some ⟨tx.hash, b, ts, tx.fromAddr, tx.toAddr, zeroAddress, tx.value⟩
  | _, _ => none

/-- C10.  The token path never filters by transaction success status:
every fetched ERC20 transfer whose block number and timestamp parse is
included in the persisted batch, whatever its other fields hold; by
contrast, the native path equals the common parse-and-normalize step
applied to only those transactions whose upstream is-error flag is
`"0"` (failed native transactions are dropped). -/
theorem claim_C10_token_path_no_status_filter :
    (∀ (txs : List ERC20Transaction) (tx : ERC20Transaction), tx ∈ txs →
      ∀ b ts, parseInt64? tx.blockNumber = some b → parseInt64? tx.timeStamp = some ts →
      (⟨tx.hash, b, ts, tx.fromAddr, tx.toAddr, tx.contractAddress, tx.value⟩ : Transfer) ∈
        processERC20Transactions txs) ∧
    (∀ txs : List ETHTransaction,
      processETHTransactions txs =
        (txs.filter fun tx => decide (tx.isError = "0")).filterMap
          ethTxToTransferNoStatus?) := by
  constructor
  · intro txs tx htx b ts hb hts
    exact List.mem_filterMap.2 ⟨tx, htx, by simp [erc20TxToTransfer?, hb, hts]⟩
  · intro txs
    induction txs with
    | nil => rfl
    | cons tx txs ih =>
      by_cases he : tx.isError = "0"
      · have h1 : ethTxToTransfer? tx = ethTxToTransferNoStatus? tx := by
          unfold ethTxToTransfer? ethTxToTransferNoStatus?
          rw [if_neg (by simp [he])]
        simp only [processETHTransactions, List.filterMap_cons, List.filter_cons,
          decide_eq_true he, h1] at ih ⊢
        cases hno : ethTxToTransferNoStatus? tx <;>
          simp [hno, List.filterMap_cons, ih, processETHTransactions]
      · have h1 : ethTxToTransfer? tx = none := by
          unfold ethTxToTransfer?
          rw [if_pos (by simp [he])]
        simp only [processETHTransactions, List.filterMap_cons, List.filter_cons,
          decide_eq_false he, h1] at ih ⊢
        exact ih

/-- Witness for C10: a token transfer carrying arbitrary fields but
parseable block number and timestamp is included; and a native
transaction with is-error flag `"1"` is dropped while its successful
sibling is kept. -/
theorem claim_C10_witness :
    (⟨"0xt", 7, 100, "0xa", "0xb", "0xc0ffee", "5"⟩ : Transfer) ∈
      processERC20Transactions [⟨"7", "100", "0xt", "0xa", "0xb", "5", "0xc0ffee"⟩] ∧
    processETHTransactions
      [⟨"7", "100", "0xbad", "0xa", "0xb", "5", "1"⟩,
       ⟨"8", "200", "0xgood", "0xa", "0xb", "6", "0"⟩] =
      [⟨"0xgood", 8, 200, "0xa", "0xb", zeroAddress, "6"⟩] := by
  constructor
  · exact claim_C10_token_path_no_status_filter.1
      [⟨"7", "100", "0xt", "0xa", "0xb", "5", "0xc0ffee"⟩]
      ⟨"7", "100", "0xt", "0xa", "0xb", "5", "0xc0ffee"⟩ (by decide) 7 100
      (by decide) (by decide)
  · rw [claim_C10_token_path_no_status_filter.2]
    decide

/-! ## Lemmas about the binary rounding model (C5) -/

lemma bitLenAux_zero (f : Nat) : bitLenAux f 0 = 0 := by
  cases f <;> rfl

lemma bitLenAux_spec : ∀ f n : Nat, n < 2 ^ f →
    n < 2 ^ bitLenAux f n ∧ (n ≠ 0 → 2 ^ (bitLenAux f n - 1) ≤ n) := by
  intro f
  induction f with
  | zero =>
    intro n hn
    have : n = 0 := by simpa using hn
    subst this
    exact ⟨by simp [bitLenAux_zero], fun h => absurd rfl h⟩
  | succ f ih =>
    intro n hn
    by_cases h0 : n = 0
    · subst h0
      exact ⟨by simp [bitLenAux_zero], fun h => absurd rfl h⟩
    · rw [bitLenAux, if_neg h0]
      have hdiv : n / 2 < 2 ^ f := by
        have h2 : n < 2 ^ f * 2 := by
          rw [← pow_succ]
          exact hn
        omega
      rcases ih (n / 2) hdiv with ⟨ih1, ih2⟩
      constructor
      · have hp : 2 ^ (bitLenAux f (n / 2) + 1) = 2 ^ bitLenAux f (n / 2) * 2 := by
          rw [pow_succ]
        omega
      · intro _
        by_cases h2 : n / 2 = 0
        · have hn1 : n = 1 := by omega
          rw [h2, bitLenAux_zero]
          simp [hn1]
        · have hb1 : 2 ^ (bitLenAux f (n / 2) - 1) ≤ n / 2 := ih2 h2
          have hbpos : 1 ≤ bitLenAux f (n / 2) := by
            by_contra hb
            have : bitLenAux f (n / 2) = 0 := by omega
            rw [this] at ih1
            omega
          have hp : 2 ^ (bitLenAux f (n / 2) + 1 - 1) =
              2 ^ (bitLenAux f (n / 2) - 1) * 2 := by
            rw [← pow_succ]
            congr 1
            omega
          omega

lemma bitLen_spec (n : Nat) :
    n < 2 ^ bitLen n ∧ (n ≠ 0 → 2 ^ (bitLen n - 1) ≤ n) :=
  bitLenAux_spec n n (Nat.lt_two_pow n)

lemma bitLen_pos {n : Nat} (h : n ≠ 0) : 1 ≤ bitLen n := by
  by_contra hb
  have h0 : bitLen n = 0 := by omega
  have := (bitLen_spec n).1
  rw [h0] at this
  omega

lemma rnDivNat_one (a : Nat) : rnDivNat a 1 = a := by
  simp [rnDivNat, Nat.mod_one, Nat.div_one]

lemma int_eq_of_abs_lt_one {a b : ℤ} (h : |(a : ℚ) - (b : ℚ)| < 1) : a = b := by
  have h1 := abs_lt.mp h
  have h2 : (-1 : ℚ) < ((a - b : ℤ) : ℚ) := by push_cast; linarith [h1.1]
  have h3 : ((a - b : ℤ) : ℚ) < 1 := by push_cast; linarith [h1.2]
  have h4 : (-1 : ℤ) < a - b := by exact_mod_cast h2
  have h5 : (a - b : ℤ) < 1 := by exact_mod_cast h3
  omega

lemma nat_eq_of_abs_lt_one {a b : Nat} (h : |(a : ℚ) - (b : ℚ)| < 1) : a = b := by
  have h' : |((a : ℤ) : ℚ) - ((b : ℤ) : ℚ)| < 1 := by push_cast; exact h
  exact_mod_cast int_eq_of_abs_lt_one h'

lemma rnDivNat_nearest {a b : Nat} (hb : b ≠ 0) :
    |(rnDivNat a b : ℚ) - (a : ℚ) / (b : ℚ)| ≤ 1 / 2 := by
  have hb0 : 0 < b := Nat.pos_of_ne_zero hb
  have hb' : (0 : ℚ) < b := by exact_mod_cast hb0
  have hmod : a % b < b := Nat.mod_lt a hb0
  have hab : (a : ℚ) = (b : ℚ) * ((a / b : Nat) : ℚ) + ((a % b : Nat) : ℚ) := by
    exact_mod_cast (Nat.div_add_mod a b).symm
  have hr' : ((a % b : Nat) : ℚ) < b := by exact_mod_cast hmod
  have e1 : ((a / b : Nat) : ℚ) * b - (a : ℚ) = -((a % b : Nat) : ℚ) := by
    rw [hab]; ring
  have e2 : ((a / b + 1 : Nat) : ℚ) * b - (a : ℚ) = (b : ℚ) - ((a % b : Nat) : ℚ) := by
    push_cast
    rw [hab]
    ring
  have key : |(rnDivNat a b : ℚ) * b - a| ≤ (b : ℚ) / 2 := by
    unfold rnDivNat
    dsimp only
    split_ifs with h1 h2 h3
    · rw [e1, abs_neg, abs_of_nonneg (by positivity)]
      rw [le_div_iff₀ (by norm_num : (0 : ℚ) < 2)]
      exact_mod_cast (by omega : (a % b) * 2 ≤ b)
    · rw [e2, abs_of_nonneg (by linarith)]
      have hr2 : (b : ℚ) < 2 * ((a % b : Nat) : ℚ) := by exact_mod_cast h2
      linarith
    · rw [e1, abs_neg, abs_of_nonneg (by positivity)]
      have heq : 2 * ((a % b : Nat) : ℚ) = b := by exact_mod_cast (by omega : 2 * (a % b) = b)
      linarith
    · rw [e2, abs_of_nonneg (by linarith)]
      have heq : 2 * ((a % b : Nat) : ℚ) = b := by exact_mod_cast (by omega : 2 * (a % b) = b)
      linarith
  have hX : (rnDivNat a b : ℚ) - (a : ℚ) / b = ((rnDivNat a b : ℚ) * b - a) / b := by
    field_simp
  rw [hX, abs_div, abs_of_pos hb', div_le_iff₀ hb']
  linarith [key]

lemma two_zpow_natCast_eq (k : Nat) : (2 : ℚ) ^ (k : ℤ) = ((2 ^ k : Nat) : ℚ) := by
  rw [zpow_natCast]
  push_cast
  rfl

lemma two_zpow_toNat_eq {d : Int} (hd : 0 ≤ d) :
    (2 : ℚ) ^ d = ((2 ^ d.toNat : Nat) : ℚ) := by
  rw [← two_zpow_natCast_eq, Int.toNat_of_nonneg hd]

lemma ltPow2_iff {a b : Nat} (hb : b ≠ 0) {d : Int} :
    ltPow2 a b d = true ↔ (a : ℚ) / b < 2 ^ d := by
  have hb' : (0 : ℚ) < b := by exact_mod_cast Nat.pos_of_ne_zero hb
  unfold ltPow2
  by_cases hd : 0 ≤ d
  · rw [if_pos hd, decide_eq_true_eq, div_lt_iff₀ hb', two_zpow_toNat_eq hd,
      show ((2 ^ d.toNat : Nat) : ℚ) * (b : ℚ) = ((2 ^ d.toNat * b : Nat) : ℚ) from by
        push_cast; ring,
      Nat.cast_lt, Nat.mul_comm b (2 ^ d.toNat)]
  · rw [if_neg hd, decide_eq_true_eq]
    have hd' : 0 ≤ -d := by omega
    have hx : (0 : ℚ) < ((2 ^ (-d).toNat : Nat) : ℚ) := by positivity
    have hzd : (2 : ℚ) ^ d = 1 / ((2 ^ (-d).toNat : Nat) : ℚ) := by
      rw [← two_zpow_toNat_eq hd',
        eq_div_iff (ne_of_gt (zpow_pos (by norm_num) _)),
        ← zpow_add₀ (by norm_num : (2 : ℚ) ≠ 0)]
      simp
    rw [hzd, div_lt_div_iff₀ hb' hx,
      show (a : ℚ) * ((2 ^ (-d).toNat : Nat) : ℚ) = ((a * 2 ^ (-d).toNat : Nat) : ℚ) from by
        push_cast; ring,
      show (1 : ℚ) * (b : ℚ) = ((b : Nat) : ℚ) from by ring, Nat.cast_lt]

lemma fracExp_spec {a b : Nat} (ha : a ≠ 0) (hb : b ≠ 0) :
    (2 : ℚ) ^ (fracExp a b - 1) ≤ (a : ℚ) / b ∧ (a : ℚ) / b < 2 ^ fracExp a b := by
  have hb' : (0 : ℚ) < b := by exact_mod_cast Nat.pos_of_ne_zero hb
  have hsa1 : 1 ≤ bitLen a := bitLen_pos ha
  have hsb1 : 1 ≤ bitLen b := bitLen_pos hb
  have haU : (a : ℚ) < 2 ^ (bitLen a : ℤ) := by
    rw [two_zpow_natCast_eq]
    exact_mod_cast (bitLen_spec a).1
  have haL : (2 : ℚ) ^ ((bitLen a : ℤ) - 1) ≤ (a : ℚ) := by
    rw [show (bitLen a : ℤ) - 1 = ((bitLen a - 1 : Nat) : ℤ) from by omega,
      two_zpow_natCast_eq]
    exact_mod_cast (bitLen_spec a).2 ha
  have hbU : (b : ℚ) < 2 ^ (bitLen b : ℤ) := by
    rw [two_zpow_natCast_eq]
    exact_mod_cast (bitLen_spec b).1
  have hbL : (2 : ℚ) ^ ((bitLen b : ℤ) - 1) ≤ (b : ℚ) := by
    rw [show (bitLen b : ℤ) - 1 = ((bitLen b - 1 : Nat) : ℤ) from by omega,
      two_zpow_natCast_eq]
    exact_mod_cast (bitLen_spec b).2 hb
  have h2ne : (2 : ℚ) ≠ 0 := by norm_num
  have hlow : (2 : ℚ) ^ ((bitLen a : ℤ) - (bitLen b : ℤ) - 1) < (a : ℚ) / b := by
    rw [lt_div_iff₀ hb']
    calc (2 : ℚ) ^ ((bitLen a : ℤ) - (bitLen b : ℤ) - 1) * b
        < 2 ^ ((bitLen a : ℤ) - (bitLen b : ℤ) - 1) * 2 ^ (bitLen b : ℤ) :=
          mul_lt_mul_of_pos_left hbU (zpow_pos (by norm_num) _)
      _ = 2 ^ ((bitLen a : ℤ) - 1) := by
          rw [← zpow_add₀ h2ne]
          congr 1
          ring
      _ ≤ a := haL
  have hhigh : (a : ℚ) / b < 2 ^ ((bitLen a : ℤ) - (bitLen b : ℤ) + 1) := by
    rw [div_lt_iff₀ hb']
    calc (a : ℚ) < 2 ^ (bitLen a : ℤ) := haU
      _ = 2 ^ ((bitLen a : ℤ) - (bitLen b : ℤ) + 1) * 2 ^ ((bitLen b : ℤ) - 1) := by
          rw [← zpow_add₀ h2ne]
          congr 1
          ring
      _ ≤ 2 ^ ((bitLen a : ℤ) - (bitLen b : ℤ) + 1) * b :=
          mul_le_mul_of_nonneg_left hbL (le_of_lt (zpow_pos (by norm_num) _))
  unfold fracExp
  dsimp only
  by_cases hlt : ltPow2 a b ((bitLen a : ℤ) - (bitLen b : ℤ)) = true
  · rw [if_pos hlt]
    exact ⟨le_of_lt hlow, (ltPow2_iff hb).1 hlt⟩
  · rw [if_neg hlt]
    have hge : 2 ^ ((bitLen a : ℤ) - (bitLen b : ℤ)) ≤ (a : ℚ) / b :=
      not_lt.1 fun h => hlt ((ltPow2_iff hb).2 h)
    refine ⟨?_, hhigh⟩
    rw [show (bitLen a : ℤ) - (bitLen b : ℤ) + 1 - 1 = (bitLen a : ℤ) - (bitLen b : ℤ)
      from by ring]
    exact hge

lemma rnPrec_step {A B : Nat} (hB : B ≠ 0) {v : ℚ} {t : ℤ}
    (hv : (A : ℚ) / B = v * 2 ^ (-t)) :
    |(rnDivNat A B : ℚ) * 2 ^ t - v| ≤ 2 ^ (t - 1) := by
  have h2ne : (2 : ℚ) ≠ 0 := by norm_num
  have h2t : (0 : ℚ) < 2 ^ t := zpow_pos (by norm_num) _
  have heq : (rnDivNat A B : ℚ) * 2 ^ t - v =
      ((rnDivNat A B : ℚ) - (A : ℚ) / B) * 2 ^ t := by
    rw [hv, sub_mul, mul_assoc, ← zpow_add₀ h2ne]
    simp
  rw [heq, abs_mul, abs_of_pos h2t]
  calc |(rnDivNat A B : ℚ) - (A : ℚ) / B| * 2 ^ t
      ≤ 1 / 2 * 2 ^ t :=
        mul_le_mul_of_nonneg_right (rnDivNat_nearest hB) (le_of_lt h2t)
    _ = 2 ^ (t - 1) := by
        rw [show (1 : ℚ) / 2 = 2 ^ (-1 : ℤ) from by norm_num, ← zpow_add₀ h2ne]
        congr 1
        ring

lemma rnPrecFrac_err {a b : Nat} (ha : a ≠ 0) (hb : b ≠ 0) (p : Nat) :
    |dval (rnPrecFrac a b p) - (a : ℚ) / b| ≤ 2 ^ (fracExp a b - 1 - p) := by
  have hb' : (0 : ℚ) < b := by exact_mod_cast Nat.pos_of_ne_zero hb
  unfold rnPrecFrac
  rw [if_neg ha]
  dsimp only
  by_cases hs : 0 ≤ (p : ℤ) - fracExp a b
  · rw [if_pos hs]
    unfold dval
    dsimp only
    have hv : ((a * 2 ^ ((p : ℤ) - fracExp a b).toNat : Nat) : ℚ) / b =
        (a : ℚ) / b * 2 ^ (-(fracExp a b - (p : ℤ))) := by
      push_cast
      rw [← zpow_natCast (2 : ℚ) ((p : ℤ) - fracExp a b).toNat, Int.toNat_of_nonneg hs,
        show -(fracExp a b - (p : ℤ)) = (p : ℤ) - fracExp a b from by ring,
        mul_div_right_comm]
    have := rnPrec_step hb hv
    calc |(rnDivNat (a * 2 ^ ((p : ℤ) - fracExp a b).toNat) b : ℚ) *
          2 ^ (fracExp a b - p) - (a : ℚ) / b|
        ≤ 2 ^ (fracExp a b - (p : ℤ) - 1) := this
      _ = 2 ^ (fracExp a b - 1 - p) := by congr 1; ring
  · rw [if_neg hs]
    unfold dval
    dsimp only
    have hB : b * 2 ^ (-((p : ℤ) - fracExp a b)).toNat ≠ 0 :=
      mul_ne_zero hb (pow_ne_zero _ (by norm_num))
    have hv : (a : ℚ) / (b * 2 ^ (-((p : ℤ) - fracExp a b)).toNat : Nat) =
        (a : ℚ) / b * 2 ^ (-(fracExp a b - (p : ℤ))) := by
      push_cast
      rw [← zpow_natCast (2 : ℚ) (-((p : ℤ) - fracExp a b)).toNat,
        Int.toNat_of_nonneg (by omega : (0 : ℤ) ≤ -((p : ℤ) - fracExp a b)),
        div_mul_eq_div_div, div_eq_mul_inv ((a : ℚ) / b), ← zpow_neg,
        show -(-((p : ℤ) - fracExp a b)) = -(fracExp a b - (p : ℤ)) from by ring]
    have := rnPrec_step hB hv
    calc |(rnDivNat a (b * 2 ^ (-((p : ℤ) - fracExp a b)).toNat) : ℚ) *
          2 ^ (fracExp a b - p) - (a : ℚ) / b|
        ≤ 2 ^ (fracExp a b - (p : ℤ) - 1) := this
      _ = 2 ^ (fracExp a b - 1 - p) := by congr 1; ring

lemma rnPrecFrac_exact_nat {n : Nat} (hn : n ≠ 0) {p : Nat} (h : n < 2 ^ p) :
    dval (rnPrecFrac n 1 p) = n := by
  have hspec := fracExp_spec hn (one_ne_zero (α := ℕ))
  have he : fracExp n 1 ≤ p := by
    have h1 : (2 : ℚ) ^ (fracExp n 1 - 1) ≤ (n : ℚ) := by simpa using hspec.1
    have h2 : (n : ℚ) < 2 ^ (p : ℤ) := by
      rw [two_zpow_natCast_eq]
      exact_mod_cast h
    have h3 := lt_of_le_of_lt h1 h2
    have h4 := (zpow_lt_zpow_iff_right₀ (by norm_num : (1 : ℚ) < 2)).1 h3
    omega
  have hs : 0 ≤ (p : ℤ) - fracExp n 1 := by omega
  unfold rnPrecFrac
  rw [if_neg hn]
  dsimp only
  rw [if_pos hs]
  unfold dval
  dsimp only
  rw [rnDivNat_one]
  push_cast
  rw [← zpow_natCast (2 : ℚ) ((p : ℤ) - fracExp n 1).toNat, Int.toNat_of_nonneg hs,
    mul_assoc, ← zpow_add₀ (by norm_num : (2 : ℚ) ≠ 0),
    show (p : ℤ) - fracExp n 1 + (fracExp n 1 - p) = 0 from by ring]
  simp

lemma dval_ne_zero {x : Nat × Int} (h : dval x ≠ 0) : x.1 ≠ 0 := by
  intro h0
  apply h
  unfold dval
  rw [h0]
  simp

lemma divPow10_spec (x : Nat × Int) (d : Nat) :
    (divPow10 x d).2 ≠ 0 ∧
    (((divPow10 x d).1 : ℚ) / ((divPow10 x d).2 : ℚ) = dval x / (10 : ℚ) ^ d) ∧
    ((divPow10 x d).1 = 0 ↔ x.1 = 0) := by
  unfold divPow10
  by_cases ht : 0 ≤ x.2
  · rw [if_pos ht]
    refine ⟨pow_ne_zero _ (by norm_num), ?_, by simp⟩
    unfold dval
    push_cast
    rw [← zpow_natCast (2 : ℚ) x.2.toNat, Int.toNat_of_nonneg ht]
  · rw [if_neg ht]
    refine ⟨mul_ne_zero (pow_ne_zero _ (by norm_num)) (pow_ne_zero _ (by norm_num)),
      ?_, by simp⟩
    unfold dval
    push_cast
    rw [← zpow_natCast (2 : ℚ) (-x.2).toNat,
      Int.toNat_of_nonneg (by omega : (0 : ℤ) ≤ -x.2),
      div_mul_eq_div_div, div_eq_mul_inv ((x.1 : ℚ) / (10 : ℚ) ^ d),
      ← zpow_neg, neg_neg, div_mul_eq_mul_div]

lemma scaleRound_near (x : Nat × Int) (d : Nat) :
    |((scaleRound x d : Nat) : ℚ) - dval x * (10 : ℚ) ^ d| ≤ 1 / 2 := by
  unfold scaleRound
  by_cases ht : 0 ≤ x.2
  · rw [if_pos ht]
    have heq : ((x.1 * 10 ^ d * 2 ^ x.2.toNat : ℕ) : ℚ) = dval x * 10 ^ d := by
      unfold dval
      push_cast
      rw [← zpow_natCast (2 : ℚ) x.2.toNat, Int.toNat_of_nonneg ht]
      ring
    rw [heq]
    simp
  · rw [if_neg ht]
    have hB : (2 : ℕ) ^ (-x.2).toNat ≠ 0 := pow_ne_zero _ (by norm_num)
    have hval : ((x.1 * 10 ^ d : ℕ) : ℚ) / ((2 ^ (-x.2).toNat : ℕ) : ℚ) =
        dval x * 10 ^ d := by
      unfold dval
      push_cast
      rw [← zpow_natCast (2 : ℚ) (-x.2).toNat,
        Int.toNat_of_nonneg (by omega : (0 : ℤ) ≤ -x.2),
        div_eq_mul_inv, ← zpow_neg, neg_neg]
      ring
    rw [← hval]
    exact rnDivNat_nearest hB

lemma normalizeScaled_exact {n d : Nat} (hn : n < 2 ^ 63) : normalizeScaled n d = n := by
  by_cases h0 : n = 0
  · subst h0
    simp [normalizeScaled, rnPrecFrac, divPow10, scaleRound]
  · have h2ne : (2 : ℚ) ≠ 0 := by norm_num
    have h10 : (0 : ℚ) < (10 : ℚ) ^ d := by positivity
    have hr1 : dval (rnPrecFrac n 1 64) = n :=
      rnPrecFrac_exact_nat h0 (lt_trans hn (by norm_num))
    rcases divPow10_spec (rnPrecFrac n 1 64) d with ⟨hfr2, hfrval, hfr1iff⟩
    have hr1ne : (rnPrecFrac n 1 64).1 ≠ 0 :=
      dval_ne_zero (by rw [hr1]; exact_mod_cast Nat.cast_ne_zero.2 h0)
    have hfr1 : (divPow10 (rnPrecFrac n 1 64) d).1 ≠ 0 := fun hh => hr1ne (hfr1iff.1 hh)
    have herr := rnPrecFrac_err hfr1 hfr2 (goQuoPrec d)
    rw [hfrval, hr1] at herr
    have hespec := (fracExp_spec hfr1 hfr2).1
    rw [hfrval, hr1] at hespec
    have hscale :=
      scaleRound_near
        (rnPrecFrac (divPow10 (rnPrecFrac n 1 64) d).1 (divPow10 (rnPrecFrac n 1 64) d).2
          (goQuoPrec d)) d
    have hqd :
        |dval (rnPrecFrac (divPow10 (rnPrecFrac n 1 64) d).1
            (divPow10 (rnPrecFrac n 1 64) d).2 (goQuoPrec d)) * (10 : ℚ) ^ d - (n : ℚ)| <
          1 / 2 := by
      have h1 :
          |dval (rnPrecFrac (divPow10 (rnPrecFrac n 1 64) d).1
              (divPow10 (rnPrecFrac n 1 64) d).2 (goQuoPrec d)) * (10 : ℚ) ^ d - (n : ℚ)| =
            |dval (rnPrecFrac (divPow10 (rnPrecFrac n 1 64) d).1
              (divPow10 (rnPrecFrac n 1 64) d).2 (goQuoPrec d)) - (n : ℚ) / (10 : ℚ) ^ d| *
              (10 : ℚ) ^ d := by
        rw [← abs_of_pos h10, ← abs_mul]
        congr 1
        field_simp
      rw [h1]
      calc |dval (rnPrecFrac (divPow10 (rnPrecFrac n 1 64) d).1
              (divPow10 (rnPrecFrac n 1 64) d).2 (goQuoPrec d)) - (n : ℚ) / (10 : ℚ) ^ d| *
            (10 : ℚ) ^ d
          ≤ 2 ^ (fracExp (divPow10 (rnPrecFrac n 1 64) d).1
              (divPow10 (rnPrecFrac n 1 64) d).2 - 1 - goQuoPrec d) * (10 : ℚ) ^ d :=
            mul_le_mul_of_nonneg_right herr (le_of_lt h10)
        _ = 2 ^ (fracExp (divPow10 (rnPrecFrac n 1 64) d).1
              (divPow10 (rnPrecFrac n 1 64) d).2 - 1) * (10 : ℚ) ^ d *
              2 ^ (-(goQuoPrec d : ℤ)) := by
            rw [show fracExp (divPow10 (rnPrecFrac n 1 64) d).1
                  (divPow10 (rnPrecFrac n 1 64) d).2 - 1 - (goQuoPrec d : ℤ) =
                (fracExp (divPow10 (rnPrecFrac n 1 64) d).1
                  (divPow10 (rnPrecFrac n 1 64) d).2 - 1) + -(goQuoPrec d : ℤ)
              from by ring, zpow_add₀ h2ne]
            ring
        _ ≤ (n : ℚ) * 2 ^ (-(goQuoPrec d : ℤ)) := by
            apply mul_le_mul_of_nonneg_right _ (le_of_lt (zpow_pos (by norm_num) _))
            rw [← le_div_iff₀ h10]
            exact hespec
        _ ≤ (n : ℚ) * 2 ^ (-(64 : ℤ)) := by
            apply mul_le_mul_of_nonneg_left _ (Nat.cast_nonneg n)
            apply zpow_le_zpow_right₀ (by norm_num)
            have h64 : (64 : ℕ) ≤ goQuoPrec d := le_max_left _ _
            omega
        _ < 2 ^ (63 : ℤ) * 2 ^ (-(64 : ℤ)) := by
            apply mul_lt_mul_of_pos_right _ (zpow_pos (by norm_num) _)
            rw [show (63 : ℤ) = ((63 : ℕ) : ℤ) from rfl, two_zpow_natCast_eq 63]
            exact_mod_cast hn
        _ = 1 / 2 := by
            rw [← zpow_add₀ h2ne]
            norm_num
    have hfinal :
        |((scaleRound (rnPrecFrac (divPow10 (rnPrecFrac n 1 64) d).1
            (divPow10 (rnPrecFrac n 1 64) d).2 (goQuoPrec d)) d : ℕ) : ℚ) - (n : ℚ)| < 1 := by
      calc |((scaleRound (rnPrecFrac (divPow10 (rnPrecFrac n 1 64) d).1
              (divPow10 (rnPrecFrac n 1 64) d).2 (goQuoPrec d)) d : ℕ) : ℚ) - (n : ℚ)|
          ≤ |((scaleRound (rnPrecFrac (divPow10 (rnPrecFrac n 1 64) d).1
              (divPow10 (rnPrecFrac n 1 64) d).2 (goQuoPrec d)) d : ℕ) : ℚ) -
              dval (rnPrecFrac (divPow10 (rnPrecFrac n 1 64) d).1
                (divPow10 (rnPrecFrac n 1 64) d).2 (goQuoPrec d)) * (10 : ℚ) ^ d| +
              |dval (rnPrecFrac (divPow10 (rnPrecFrac n 1 64) d).1
                (divPow10 (rnPrecFrac n 1 64) d).2 (goQuoPrec d)) * (10 : ℚ) ^ d -
                (n : ℚ)| := abs_sub_le _ _ _
        _ < 1 / 2 + 1 / 2 := add_lt_add_of_le_of_lt hscale hqd
        _ = 1 := by norm_num
    exact nat_eq_of_abs_lt_one hfinal

/-- Counterexample to C5 as stated: the raw amount `2^64 + 1` with
decimals 0 does not normalize to itself (the exact value of
`raw / 10^0`): the 64-bit `big.Float` significand rounds it to `2^64`,
so the rendered amount is `18446744073709551616`, not the exact
`18446744073709551617`. -/
theorem claim_C5_counterexample :
    normalizeAmount "18446744073709551617" 0 ≠ renderFixed 18446744073709551617 0 ∧
    normalizeAmount "18446744073709551617" 0 = "18446744073709551616" := by
  constructor
  · decide
  · decide

/-- C5, amended.  Amount normalization is exact division for every raw
amount below `2^63`: for such raw values (with decimals in `[0, 30]`),
the scaled digit string the `big.Float` pipeline prints equals the raw
value itself, so the normalized output is exactly `raw / 10^decimals`
rendered with `decimals` fractional digits.  (Beyond 64 significant
bits the 64-bit parse mantissa rounds, and the quotient's relative
error can reach the last rendered digit already at `2^63`.) -/
theorem claim_C5_normalization_exact_below_2pow63 (s : String) (n d : Nat)
    (hparse : digitsToNat? s.data = some n) (hn : n < 2 ^ 63) (_hd : d ≤ 30) :
    normalizeScaled n d = n ∧ normalizeAmount s d = renderFixed n d := by
  refine ⟨normalizeScaled_exact hn, ?_⟩
  unfold normalizeAmount
  rw [hparse]
  dsimp only
  rw [normalizeScaled_exact hn]

/-- Witness for C5 (amended): the raw amount `"1500000000000000000"`
with decimals 18 normalizes to the exact rendering of
`1500000000000000000 / 10^18` (that is, `"1.500000000000000000"`). -/
theorem claim_C5_witness :
    normalizeAmount "1500000000000000000" 18 = renderFixed 1500000000000000000 18 :=
  (claim_C5_normalization_exact_below_2pow63 "1500000000000000000" 1500000000000000000 18
    (by decide) (by decide) (by decide)).2

end TransferTrack
